import Mathlib

/-!
Verification of the resilient-invocation and defensive-parsing layer of the
ai-career-coach backend (src/core/ai_core.py, src/core/db_core.py).

Python strings are modelled as `List Char`.  The Python standard-library
collaborators `json.loads` / `json.dumps` are modelled by an executable JSON
parser and serializer over an AST `JVal`; numbers are modelled as integers
(float syntax is outside the modelled fragment), and JSON objects are modelled
as ordered key-value lists (a Python dict corresponds to such a list with
distinct keys).
-/

/-- Whitespace characters removed by Python `str.strip()` (ASCII range). -/
def isPyWs (c : Char) : Bool :=
  decide (c.toNat = 32 ∨ c.toNat = 9 ∨ c.toNat = 10 ∨ c.toNat = 13 ∨
    c.toNat = 11 ∨ c.toNat = 12)

/-- Whitespace skipped by the JSON decoder (`json.loads`): space, tab, LF, CR. -/
def isJsonWs (c : Char) : Bool :=
  decide (c.toNat = 32 ∨ c.toNat = 9 ∨ c.toNat = 10 ∨ c.toNat = 13)

/-- ASCII decimal digit test. -/
def isDigitC (c : Char) : Bool :=
  decide (48 ≤ c.toNat ∧ c.toNat ≤ 57)

/-- Python `str.strip()`: drop leading and trailing whitespace. -/
def pstrip (s : List Char) : List Char :=
  ((s.dropWhile isPyWs).reverse.dropWhile isPyWs).reverse

/-- Python `str.startswith(p)` on character lists. -/
def hasPre : List Char → List Char → Bool
  | [], _ => true
  | _ :: _, [] => false
  | p :: ps, c :: cs => p = c && hasPre ps cs

/-- Python `str.endswith(p)` on character lists. -/
def hasSuf (p s : List Char) : Bool :=
  hasPre p.reverse s.reverse

/-- JSON values, as produced by the Python `json` module on the modelled
fragment: numbers are integers, objects are ordered key-value lists. -/
inductive JVal where
  | jnull : JVal
  | jbool : Bool → JVal
  | jnum : Int → JVal
  | jstr : List Char → JVal
  | jarr : List JVal → JVal
  | jobj : List (List Char × JVal) → JVal

/-- Character of a decimal digit. -/
def digitChar (d : Nat) : Char := Char.ofNat (48 + d)

/-- Numeric value of a digit character. -/
def digitVal (c : Char) : Nat := c.toNat - 48

/-- Decimal digits of a positive natural, most significant first; the first
argument is recursion fuel (`n` itself suffices). -/
def natToCharsAux : Nat → Nat → List Char
  | 0, _ => []
  | fuel + 1, n => if n = 0 then [] else natToCharsAux fuel (n / 10) ++ [digitChar (n % 10)]

/-- Decimal representation of a natural number. -/
def natToChars (n : Nat) : List Char :=
  if n = 0 then ['0'] else natToCharsAux n n

/-- Decimal representation of an integer, as emitted by `json.dumps`. -/
def intToChars (n : Int) : List Char :=
  if n < 0 then '-' :: natToChars n.natAbs else natToChars n.natAbs

/-- Lower-case hexadecimal digit character. -/
def hexDigitChar (d : Nat) : Char :=
  if d < 10 then Char.ofNat (48 + d) else Char.ofNat (87 + d)

/-- Escaping of one character inside a JSON string literal, following
`json.dumps`: quote, backslash and the shorthand control escapes, with the
remaining control characters emitted as a four-digit unicode escape. -/
def escChar (c : Char) : List Char :=
  if c = '"' then ['\\', '"']
  else if c = '\\' then ['\\', '\\']
  else if c = '\n' then ['\\', 'n']
  else if c = '\t' then ['\\', 't']
  else if c = '\r' then ['\\', 'r']
  else if c = '\x08' then ['\\', 'b']
  else if c = '\x0c' then ['\\', 'f']
  else if c.toNat < 32 then
    ['\\', 'u', '0', '0', hexDigitChar (c.toNat / 16), hexDigitChar (c.toNat % 16)]
  else [c]

/-- Escape every character of a string body. -/
def escList : List Char → List Char
  | [] => []
  | c :: cs => escChar c ++ escList cs

/-- Serialization of a JSON string literal, quotes included. -/
def serStr (s : List Char) : List Char :=
  '"' :: escList s ++ ['"']

mutual
/-- Model of `json.dumps` with its default separators. -/
def serVal : JVal → List Char
  | JVal.jnull => ['n', 'u', 'l', 'l']
  | JVal.jbool true => ['t', 'r', 'u', 'e']
  | JVal.jbool false => ['f', 'a', 'l', 's', 'e']
  | JVal.jnum n => intToChars n
  | JVal.jstr s => serStr s
  | JVal.jarr [] => ['[', ']']
  | JVal.jarr (x :: xs) => '[' :: (serVal x ++ serArrRest xs) ++ [']']
  | JVal.jobj [] => ['{', '}']
  | JVal.jobj ((k, v) :: kvs) =>
      '{' :: (serStr k ++ ':' :: ' ' :: serVal v ++ serObjRest kvs) ++ ['}']

/-- Remaining array items, each preceded by the default separator. -/
def serArrRest : List JVal → List Char
  | [] => []
  | x :: xs => ',' :: ' ' :: serVal x ++ serArrRest xs

/-- Remaining object items, each preceded by the default separators. -/
def serObjRest : List (List Char × JVal) → List Char
  | [] => []
  | (k, v) :: kvs => ',' :: ' ' :: serStr k ++ ':' :: ' ' :: serVal v ++ serObjRest kvs
end

/-- Skip JSON whitespace. -/
def skipWs (s : List Char) : List Char := s.dropWhile isJsonWs

/-- Numeric value of a hexadecimal digit character, both cases. -/
def hexVal (c : Char) : Option Nat :=
  if 48 ≤ c.toNat ∧ c.toNat ≤ 57 then some (c.toNat - 48)
  else if 97 ≤ c.toNat ∧ c.toNat ≤ 102 then some (c.toNat - 87)
  else if 65 ≤ c.toNat ∧ c.toNat ≤ 70 then some (c.toNat - 55)
  else none

/-- Body of a JSON string literal after the opening quote: strict mode, so a
raw control character is rejected; the escapes are those `json.loads`
accepts. Returns the decoded characters and the input after the closing
quote. -/
def parseStrRest : List Char → Option (List Char × List Char)
  | [] => none
  | c :: r =>
    if c = '"' then some ([], r)
    else if c = '\\' then
      match r with
      | [] => none
      | e :: r2 =>
        if e = '"' then (parseStrRest r2).map (fun p => ('"' :: p.1, p.2))
        else if e = '\\' then (parseStrRest r2).map (fun p => ('\\' :: p.1, p.2))
        else if e = '/' then (parseStrRest r2).map (fun p => ('/' :: p.1, p.2))
        else if e = 'b' then (parseStrRest r2).map (fun p => ('\x08' :: p.1, p.2))
        else if e = 'f' then (parseStrRest r2).map (fun p => ('\x0c' :: p.1, p.2))
        else if e = 'n' then (parseStrRest r2).map (fun p => ('\n' :: p.1, p.2))
        else if e = 'r' then (parseStrRest r2).map (fun p => ('\r' :: p.1, p.2))
        else if e = 't' then (parseStrRest r2).map (fun p => ('\t' :: p.1, p.2))
        else if e = 'u' then
          match r2 with
          | h1 :: h2 :: h3 :: h4 :: r6 =>
            match hexVal h1, hexVal h2, hexVal h3, hexVal h4 with
            | some a, some b, some c2, some d =>
              (parseStrRest r6).map
                (fun p => (Char.ofNat (((a * 16 + b) * 16 + c2) * 16 + d) :: p.1, p.2))
            | _, _, _, _ => none
          | _ => none
        else none
    else if c.toNat < 32 then none
    else (parseStrRest r).map (fun p => (c :: p.1, p.2))

/-- Integer part of a JSON number, with the JSON leading-zero rule. -/
def parseDigits (s : List Char) : Option (Nat × List Char) :=
  match s with
  | [] => none
  | c :: r =>
    if c = '0' then some (0, r)
    else if isDigitC c then
      some ((s.takeWhile isDigitC).foldl (fun a d => 10 * a + digitVal d) 0,
        s.dropWhile isDigitC)
    else none

/-- Dispatch on the first significant character of a JSON value; the two
continuations parse the remainder of a non-empty array and of a non-empty
object respectively. -/
def parseCore (pItems : List Char → Option (List JVal × List Char))
    (pFields : List Char → Option (List (List Char × JVal) × List Char))
    (c : Char) (r : List Char) : Option (JVal × List Char) :=
  if c = 'n' then
    match r with
    | 'u' :: 'l' :: 'l' :: r2 => some (JVal.jnull, r2)
    | _ => none
  else if c = 't' then
    match r with
    | 'r' :: 'u' :: 'e' :: r2 => some (JVal.jbool true, r2)
    | _ => none
  else if c = 'f' then
    match r with
    | 'a' :: 'l' :: 's' :: 'e' :: r2 => some (JVal.jbool false, r2)
    | _ => none
  else if c = '"' then (parseStrRest r).map (fun p => (JVal.jstr p.1, p.2))
  else if c = '-' then (parseDigits r).map (fun p => (JVal.jnum (-(p.1 : Int)), p.2))
  else if isDigitC c then (parseDigits (c :: r)).map (fun p => (JVal.jnum (p.1 : Int), p.2))
  else if c = '[' then
    match skipWs r with
    | [] => (pItems []).map (fun p => (JVal.jarr p.1, p.2))
    | c2 :: r2 =>
      if c2 = ']' then some (JVal.jarr [], r2)
      else (pItems (c2 :: r2)).map (fun p => (JVal.jarr p.1, p.2))
  else if c = '{' then
    match skipWs r with
    | [] => (pFields []).map (fun p => (JVal.jobj p.1, p.2))
    | c2 :: r2 =>
      if c2 = '}' then some (JVal.jobj [], r2)
      else (pFields (c2 :: r2)).map (fun p => (JVal.jobj p.1, p.2))
  else none

mutual
/-- Model of the `json.loads` value scanner, fuel-indexed. -/
def parseV : Nat → List Char → Option (JVal × List Char)
  | 0, _ => none
  | fuel + 1, s =>
    match skipWs s with
    | [] => none
    | c :: r => parseCore (fun t => parseItems fuel t) (fun t => parseFields fuel t) c r
termination_by structural fuel _ => fuel

/-- One or more array items followed by the closing bracket. -/
def parseItems : Nat → List Char → Option (List JVal × List Char)
  | 0, _ => none
  | fuel + 1, s =>
    match parseV fuel s with
    | none => none
    | some (v, r) =>
      match skipWs r with
      | [] => none
      | c :: r2 =>
        if c = ',' then (parseItems fuel r2).map (fun p => (v :: p.1, p.2))
        else if c = ']' then some ([v], r2)
        else none
termination_by structural fuel _ => fuel

/-- One or more object members followed by the closing brace. -/
def parseFields : Nat → List Char → Option (List (List Char × JVal) × List Char)
  | 0, _ => none
  | fuel + 1, s =>
    match skipWs s with
    | [] => none
    | c :: r =>
      if c = '"' then
        match parseStrRest r with
        | none => none
        | some (k, r2) =>
          match skipWs r2 with
          | [] => none
          | c2 :: r3 =>
            if c2 = ':' then
              match parseV fuel r3 with
              | none => none
              | some (v, r4) =>
                match skipWs r4 with
                | [] => none
                | c3 :: r5 =>
                  if c3 = ',' then (parseFields fuel r5).map (fun p => ((k, v) :: p.1, p.2))
                  else if c3 = '}' then some ([(k, v)], r5)
                  else none
            else none
      else none
termination_by structural fuel _ => fuel
end

/-- Model of `json.loads`: parse one value, then require only whitespace to
remain (otherwise Python raises the `Extra data` decode error, modelled as
`none`). The fuel `2 * length + 2` dominates the parser's needs. -/
def loads (s : List Char) : Option JVal :=
  match parseV (2 * s.length + 2) s with
  | some (v, r) => if skipWs r = [] then some v else none
  | none => none

/-- Leading markdown fence marker stripped by `_safe_json_loads`. -/
def fenceOpen : List Char := ['`', '`', '`', 'j', 's', 'o', 'n']

/-- Trailing markdown fence marker stripped by `_safe_json_loads`. -/
def fenceClose : List Char := ['`', '`', '`']

/-- Cleaning phase of `_safe_json_loads` (src/core/ai_core.py lines 113-117):
strip, drop a leading "```json" fence, drop a trailing "```" fence, strip
again. -/
def clean (s : List Char) : List Char :=
  let s1 := pstrip s
  let s2 := if hasPre fenceOpen s1 then s1.drop 7 else s1
  let s3 := if hasSuf fenceClose s2 then s2.take (s2.length - 3) else s2
  pstrip s3

/-- Suffix of the input beginning at its first occurrence of the target
character, or `none`. -/
def dropUntilIncl (t : Char) : List Char → Option (List Char)
  | [] => none
  | c :: r => if c = t then some (c :: r) else dropUntilIncl t r

/-- Model of `re.search(r"\x7b.*\x7d", s, flags=re.DOTALL)`: the greedy match
runs from the first opening brace to the last closing brace after it. -/
def extractBraced (s : List Char) : Option (List Char) :=
  (dropUntilIncl '{' s).bind (fun u => (dropUntilIncl '}' u.reverse).map List.reverse)

/-- Model of `_safe_json_loads` (src/core/ai_core.py lines 110-127) with the
default fallback `None`; the absent input is `none`, the fallback sentinel is
the result `none`. -/
def _safe_json_loads (input : Option (List Char)) : Option JVal :=
  match input with
  | none => none
  | some s =>
    if s = [] then none
    else
      let c := clean s
      match loads c with
      | some v => some v
      | none =>
        match extractBraced c with
        | some t => loads t
        | none => none

/-- Condition that a list does not begin with a decimal digit. -/
def noDigitHead (r : List Char) : Prop :=
  ∀ c, r.head? = some c → isDigitC c = false

theorem skipWs_cons (c : Char) (t : List Char) (h : isJsonWs c = false) :
    skipWs (c :: t) = c :: t := by
  simp [skipWs, List.dropWhile_cons, h]

theorem skipWs_append (pre s : List Char) (h : ∀ c ∈ pre, isJsonWs c = true) :
    skipWs (pre ++ s) = skipWs s := by
  induction pre with
  | nil => rfl
  | cons a t ih =>
    simp only [List.cons_append, skipWs, List.dropWhile_cons, h a (by simp)]
    exact ih (fun c hc => h c (by simp [hc]))

theorem parseV_ws (fuel : Nat) (pre s : List Char) (h : ∀ c ∈ pre, isJsonWs c = true) :
    parseV fuel (pre ++ s) = parseV fuel s := by
  cases fuel with
  | zero => rfl
  | succ f => simp only [parseV]; rw [skipWs_append pre s h]

theorem parseItems_ws (fuel : Nat) (pre s : List Char) (h : ∀ c ∈ pre, isJsonWs c = true) :
    parseItems fuel (pre ++ s) = parseItems fuel s := by
  cases fuel with
  | zero => rfl
  | succ f => simp only [parseItems]; rw [parseV_ws f pre s h]

theorem parseFields_ws (fuel : Nat) (pre s : List Char) (h : ∀ c ∈ pre, isJsonWs c = true) :
    parseFields fuel (pre ++ s) = parseFields fuel s := by
  cases fuel with
  | zero => rfl
  | succ f => simp only [parseFields]; rw [skipWs_append pre s h]

theorem parseV_cons (f : Nat) (c : Char) (X : List Char) (h : isJsonWs c = false) :
    parseV (f + 1) (c :: X) =
      parseCore (fun t => parseItems f t) (fun t => parseFields f t) c X := by
  simp only [parseV]; rw [skipWs_cons c X h]

theorem parseCore_digit (pi : List Char → Option (List JVal × List Char))
    (pf : List Char → Option (List (List Char × JVal) × List Char))
    (c : Char) (r : List Char) (h : isDigitC c = true) :
    parseCore pi pf c r = (parseDigits (c :: r)).map (fun p => (JVal.jnum (p.1 : Int), p.2)) := by
  have h1 : ¬(c = 'n') := by intro e; subst e; exact absurd h (by decide)
  have h2 : ¬(c = 't') := by intro e; subst e; exact absurd h (by decide)
  have h3 : ¬(c = 'f') := by intro e; subst e; exact absurd h (by decide)
  have h4 : ¬(c = '"') := by intro e; subst e; exact absurd h (by decide)
  have h5 : ¬(c = '-') := by intro e; subst e; exact absurd h (by decide)
  simp only [parseCore, if_neg h1, if_neg h2, if_neg h3, if_neg h4, if_neg h5, if_pos h]

theorem parseCore_lbrack (pi : List Char → Option (List JVal × List Char))
    (pf : List Char → Option (List (List Char × JVal) × List Char))
    (r : List Char) (c0 : Char) (rr : List Char)
    (h : skipWs r = c0 :: rr) (hne : ¬(c0 = ']')) :
    parseCore pi pf '[' r = (pi (c0 :: rr)).map (fun p => (JVal.jarr p.1, p.2)) := by
  show (match skipWs r with
    | [] => (pi []).map (fun (p : List JVal × List Char) => (JVal.jarr p.1, p.2))
    | c2 :: r2 =>
      if c2 = ']' then some (JVal.jarr [], r2)
      else (pi (c2 :: r2)).map (fun (p : List JVal × List Char) => (JVal.jarr p.1, p.2))) = _
  rw [h]
  show (if c0 = ']' then some (JVal.jarr [], rr)
    else (pi (c0 :: rr)).map (fun (p : List JVal × List Char) => (JVal.jarr p.1, p.2))) = _
  rw [if_neg hne]

theorem parseCore_lbrace (pi : List Char → Option (List JVal × List Char))
    (pf : List Char → Option (List (List Char × JVal) × List Char))
    (r : List Char) (c0 : Char) (rr : List Char)
    (h : skipWs r = c0 :: rr) (hne : ¬(c0 = '}')) :
    parseCore pi pf '{' r = (pf (c0 :: rr)).map (fun p => (JVal.jobj p.1, p.2)) := by
  show (match skipWs r with
    | [] => (pf []).map (fun (p : List (List Char × JVal) × List Char) => (JVal.jobj p.1, p.2))
    | c2 :: r2 =>
      if c2 = '}' then some (JVal.jobj [], r2)
      else (pf (c2 :: r2)).map
        (fun (p : List (List Char × JVal) × List Char) => (JVal.jobj p.1, p.2))) = _
  rw [h]
  show (if c0 = '}' then some (JVal.jobj [], rr)
    else (pf (c0 :: rr)).map
      (fun (p : List (List Char × JVal) × List Char) => (JVal.jobj p.1, p.2))) = _
  rw [if_neg hne]

theorem digitChar_toNat (d : Nat) (h : d ≤ 9) : (digitChar d).toNat = 48 + d := by
  interval_cases d <;> rfl

theorem isDigitC_digitChar (d : Nat) (h : d ≤ 9) : isDigitC (digitChar d) = true := by
  interval_cases d <;> rfl

theorem digitVal_digitChar (d : Nat) (h : d ≤ 9) : digitVal (digitChar d) = d := by
  interval_cases d <;> rfl

theorem hexVal_hexDigitChar (d : Nat) (h : d < 16) : hexVal (hexDigitChar d) = some d := by
  interval_cases d <;> rfl

theorem isJsonWs_of_digit (c : Char) (h : isDigitC c = true) : isJsonWs c = false := by
  simp only [isDigitC, decide_eq_true_eq] at h
  simp only [isJsonWs, decide_eq_false_iff_not]
  omega

theorem isPyWs_of_digit (c : Char) (h : isDigitC c = true) : isPyWs c = false := by
  simp only [isDigitC, decide_eq_true_eq] at h
  simp only [isPyWs, decide_eq_false_iff_not]
  omega

theorem natToCharsAux_zero (fuel : Nat) : natToCharsAux fuel 0 = [] := by
  cases fuel <;> simp [natToCharsAux]

theorem natToCharsAux_all_digits (fuel : Nat) :
    ∀ n, ∀ c ∈ natToCharsAux fuel n, isDigitC c = true := by
  induction fuel with
  | zero => intro n c hc; simp [natToCharsAux] at hc
  | succ f ih =>
    intro n c hc
    by_cases hn : n = 0
    · simp [natToCharsAux, hn] at hc
    · simp only [natToCharsAux, if_neg hn, List.mem_append, List.mem_singleton] at hc
      rcases hc with hc | hc
      · exact ih (n / 10) c hc
      · subst hc; exact isDigitC_digitChar _ (by omega)

theorem natToCharsAux_head (fuel : Nat) :
    ∀ n, 0 < n → n ≤ fuel →
      ∃ d t, natToCharsAux fuel n = digitChar d :: t ∧ 1 ≤ d ∧ d ≤ 9 := by
  induction fuel with
  | zero => intro n h1 h2; omega
  | succ f ih =>
    intro n h1 h2
    have hn : ¬(n = 0) := by omega
    by_cases hq : n / 10 = 0
    · refine ⟨n % 10, [], ?_, ?_, by omega⟩
      · simp [natToCharsAux, if_neg hn, hq, natToCharsAux_zero]
      · have : n % 10 = n - 10 * (n / 10) := by omega
        omega
    · have hlt : n / 10 ≤ f := by
        have := Nat.div_lt_self h1 (by omega : 1 < 10)
        omega
      obtain ⟨d, t, hA, hd1, hd9⟩ := ih (n / 10) (by omega) hlt
      exact ⟨d, t ++ [digitChar (n % 10)], by simp [natToCharsAux, if_neg hn, hA], hd1, hd9⟩

theorem natToCharsAux_foldl (fuel : Nat) :
    ∀ n acc, n ≤ fuel →
      (natToCharsAux fuel n).foldl (fun a c => 10 * a + digitVal c) acc =
        acc * 10 ^ (natToCharsAux fuel n).length + n := by
  induction fuel with
  | zero =>
    intro n acc h
    have : n = 0 := by omega
    subst this; simp [natToCharsAux]
  | succ f ih =>
    intro n acc h
    by_cases hn : n = 0
    · subst hn; simp [natToCharsAux]
    · have hlt : n / 10 ≤ f := by
        have := Nat.div_lt_self (by omega : 0 < n) (by omega : 1 < 10)
        omega
      simp only [natToCharsAux, if_neg hn, List.foldl_append, List.length_append,
        List.foldl_cons, List.foldl_nil, List.length_cons, List.length_nil]
      rw [ih (n / 10) acc hlt, digitVal_digitChar _ (by omega)]
      have hmod : 10 * (n / 10) + n % 10 = n := Nat.div_add_mod n 10
      have hpow : 10 ^ (0 + 1) = 10 := by norm_num
      calc 10 * (acc * 10 ^ (natToCharsAux f (n / 10)).length + n / 10) + n % 10
          = acc * (10 ^ (natToCharsAux f (n / 10)).length * 10) +
              (10 * (n / 10) + n % 10) := by ring
        _ = acc * 10 ^ ((natToCharsAux f (n / 10)).length + (0 + 1)) + n := by
            rw [hmod, pow_add, hpow]

theorem natToChars_ne_nil (n : Nat) : natToChars n ≠ [] := by
  by_cases hn : n = 0
  · subst hn; simp [natToChars]
  · obtain ⟨d, t, hA, _, _⟩ := natToCharsAux_head n n (by omega) le_rfl
    simp [natToChars, if_neg hn, hA]

theorem natToChars_all_digits (n : Nat) : ∀ c ∈ natToChars n, isDigitC c = true := by
  intro c hc
  by_cases hn : n = 0
  · subst hn; simp [natToChars] at hc; subst hc; rfl
  · simp only [natToChars, if_neg hn] at hc
    exact natToCharsAux_all_digits n n c hc

theorem natToChars_head (n : Nat) :
    ∃ c t, natToChars n = c :: t ∧ isDigitC c = true ∧ (0 < n → ¬(c = '0')) := by
  by_cases hn : n = 0
  · exact ⟨'0', [], by simp [natToChars, hn], by decide, by omega⟩
  · obtain ⟨d, t, hA, hd1, hd9⟩ := natToCharsAux_head n n (by omega) le_rfl
    refine ⟨digitChar d, t, by simp [natToChars, if_neg hn, hA],
      isDigitC_digitChar d (by omega), fun _ e => ?_⟩
    have := congrArg Char.toNat e
    rw [digitChar_toNat d (by omega)] at this
    simp only [show ('0').toNat = 48 from rfl] at this
    omega

theorem takeWhile_dropWhile_append (p : Char → Bool) (l r : List Char)
    (hl : ∀ c ∈ l, p c = true) (hr : ∀ c, r.head? = some c → p c = false) :
    (l ++ r).takeWhile p = l ∧ (l ++ r).dropWhile p = r := by
  induction l with
  | nil =>
    cases r with
    | nil => simp
    | cons c r2 => simp [List.takeWhile_cons, List.dropWhile_cons, hr c rfl]
  | cons a t ih =>
    have ha : p a = true := hl a (by simp)
    obtain ⟨h1, h2⟩ := ih (fun c hc => hl c (by simp [hc]))
    simp [List.takeWhile_cons, List.dropWhile_cons, ha, h1, h2]

theorem parseDigits_natToChars (n : Nat) (rest : List Char) (hr : noDigitHead rest) :
    parseDigits (natToChars n ++ rest) = some (n, rest) := by
  obtain ⟨htake, hdrop⟩ := takeWhile_dropWhile_append isDigitC (natToChars n) rest
    (natToChars_all_digits n) hr
  by_cases hn : n = 0
  · subst hn
    show parseDigits ('0' :: rest) = some (0, rest)
    rw [parseDigits.eq_def]
    simp
  · obtain ⟨c, t, hct, hdig, h0⟩ := natToChars_head n
    have hne0 : ¬(c = '0') := h0 (by omega)
    rw [hct]
    rw [hct] at htake hdrop
    simp only [List.cons_append] at htake hdrop ⊢
    rw [parseDigits.eq_def]
    simp only [if_neg hne0, if_pos hdig, htake, hdrop]
    have hfold : (natToChars n).foldl (fun a c => 10 * a + digitVal c) 0 = n := by
      simp only [natToChars, if_neg hn]
      rw [natToCharsAux_foldl n n 0 le_rfl]
      simp
    rw [hct] at hfold
    rw [hfold]

theorem parseStrRest_escList (s : List Char) :
    ∀ rest, parseStrRest (escList s ++ '"' :: rest) = some (s, rest) := by
  induction s with
  | nil =>
    intro rest
    show parseStrRest ('"' :: rest) = _
    rw [parseStrRest.eq_def]
    simp
  | cons c cs ih =>
    intro rest
    by_cases h1 : c = '"'
    · subst h1
      show parseStrRest ('\\' :: '"' :: (escList cs ++ '"' :: rest)) = _
      rw [parseStrRest.eq_def]
      simp [ih rest]
    · by_cases h2 : c = '\\'
      · subst h2
        show parseStrRest ('\\' :: '\\' :: (escList cs ++ '"' :: rest)) = _
        rw [parseStrRest.eq_def]
        simp [ih rest]
      · by_cases h3 : c = '\n'
        · subst h3
          show parseStrRest ('\\' :: 'n' :: (escList cs ++ '"' :: rest)) = _
          rw [parseStrRest.eq_def]
          simp [ih rest]
        · by_cases h4 : c = '\t'
          · subst h4
            show parseStrRest ('\\' :: 't' :: (escList cs ++ '"' :: rest)) = _
            rw [parseStrRest.eq_def]
            simp [ih rest]
          · by_cases h5 : c = '\r'
            · subst h5
              show parseStrRest ('\\' :: 'r' :: (escList cs ++ '"' :: rest)) = _
              rw [parseStrRest.eq_def]
              simp [ih rest]
            · by_cases h6 : c = '\x08'
              · subst h6
                show parseStrRest ('\\' :: 'b' :: (escList cs ++ '"' :: rest)) = _
                rw [parseStrRest.eq_def]
                simp [ih rest]
              · by_cases h7 : c = '\x0c'
                · subst h7
                  show parseStrRest ('\\' :: 'f' :: (escList cs ++ '"' :: rest)) = _
                  rw [parseStrRest.eq_def]
                  simp [ih rest]
                · by_cases h8 : c.toNat < 32
                  · have hq : hexVal (hexDigitChar (c.toNat / 16)) = some (c.toNat / 16) :=
                      hexVal_hexDigitChar _ (by omega)
                    have hm : hexVal (hexDigitChar (c.toNat % 16)) = some (c.toNat % 16) :=
                      hexVal_hexDigitChar _ (by omega)
                    have hesc : escChar c =
                        ['\\', 'u', '0', '0', hexDigitChar (c.toNat / 16),
                          hexDigitChar (c.toNat % 16)] := by
                      simp [escChar, h1, h2, h3, h4, h5, h6, h7, h8]
                    simp only [escList, hesc, List.cons_append, List.append_assoc]
                    rw [parseStrRest.eq_def]
                    simp [hq, hm, ih rest]
                    rw [show hexVal '0' = some 0 from rfl]
                    show some (Char.ofNat (((0 * 16 + 0) * 16 + c.toNat / 16) * 16 +
                      c.toNat % 16) :: cs, rest) = some (c :: cs, rest)
                    rw [show ((0 * 16 + 0) * 16 + c.toNat / 16) * 16 + c.toNat % 16 =
                      c.toNat from by omega, Char.ofNat_toNat]
                  · have hesc : escChar c = [c] := by
                      simp [escChar, h1, h2, h3, h4, h5, h6, h7, h8]
                    simp only [escList, hesc, List.cons_append, List.singleton_append]
                    rw [parseStrRest.eq_def]
                    simp only [if_neg h1, if_neg h2, if_neg (by omega : ¬c.toNat < 32),
                      List.nil_append, ih rest]
                    rfl

mutual
/-- Structural size of a JSON value, a lower bound for the parser fuel. -/
def jsize : JVal → Nat
  | JVal.jnull => 1
  | JVal.jbool _ => 1
  | JVal.jnum _ => 1
  | JVal.jstr _ => 1
  | JVal.jarr xs => 1 + jsizeList xs
  | JVal.jobj kvs => 1 + jsizeFields kvs

/-- Size of an array body. -/
def jsizeList : List JVal → Nat
  | [] => 1
  | x :: xs => 1 + jsize x + jsizeList xs

/-- Size of an object body. -/
def jsizeFields : List (List Char × JVal) → Nat
  | [] => 1
  | (_, v) :: kvs => 1 + jsize v + jsizeFields kvs
end

theorem jsize_jnull : jsize JVal.jnull = 1 := by
  rw [jsize.eq_def]

theorem jsize_jbool (b : Bool) : jsize (JVal.jbool b) = 1 := by
  rw [jsize.eq_def]

theorem jsize_jnum (n : Int) : jsize (JVal.jnum n) = 1 := by
  rw [jsize.eq_def]

theorem jsize_jstr (s : List Char) : jsize (JVal.jstr s) = 1 := by
  rw [jsize.eq_def]

theorem jsize_jarr (xs : List JVal) : jsize (JVal.jarr xs) = 1 + jsizeList xs := by
  rw [jsize.eq_def]

theorem jsize_jobj (kvs : List (List Char × JVal)) :
    jsize (JVal.jobj kvs) = 1 + jsizeFields kvs := by
  rw [jsize.eq_def]

theorem jsizeList_nil : jsizeList [] = 1 := by
  rw [jsizeList.eq_def]

theorem jsizeFields_nil : jsizeFields [] = 1 := by
  rw [jsizeFields.eq_def]

theorem serArrRest_nil : serArrRest [] = [] := by
  rw [serArrRest.eq_def]

theorem serObjRest_nil : serObjRest [] = [] := by
  rw [serObjRest.eq_def]

theorem jsizeList_cons (x : JVal) (xs : List JVal) :
    jsizeList (x :: xs) = 1 + jsize x + jsizeList xs := by
  rw [jsizeList.eq_def]

theorem jsizeFields_cons (k : List Char) (v : JVal) (kvs : List (List Char × JVal)) :
    jsizeFields ((k, v) :: kvs) = 1 + jsize v + jsizeFields kvs := by
  rw [jsizeFields.eq_def]

theorem jsizeList_pos (xs : List JVal) : 1 ≤ jsizeList xs := by
  cases xs with
  | nil => rw [jsizeList_nil]
  | cons x t => rw [jsizeList_cons]; omega

theorem jsizeFields_pos (kvs : List (List Char × JVal)) : 1 ≤ jsizeFields kvs := by
  cases kvs with
  | nil => rw [jsizeFields_nil]
  | cons kv t => rcases kv with ⟨k, v⟩; rw [jsizeFields_cons]; omega

theorem jsize_pos (v : JVal) : 1 ≤ jsize v := by
  cases v with
  | jnull => rw [jsize_jnull]
  | jbool b => rw [jsize_jbool]
  | jnum n => rw [jsize_jnum]
  | jstr s => rw [jsize_jstr]
  | jarr xs => rw [jsize_jarr]; omega
  | jobj kvs => rw [jsize_jobj]; omega

theorem serVal_jnum (n : Int) : serVal (JVal.jnum n) = intToChars n := by
  rw [serVal.eq_def]

theorem serVal_jstr (s : List Char) : serVal (JVal.jstr s) = serStr s := by
  rw [serVal.eq_def]

theorem serVal_jarr_cons (x : JVal) (xs : List JVal) :
    serVal (JVal.jarr (x :: xs)) = '[' :: (serVal x ++ serArrRest xs) ++ [']'] := by
  rw [serVal.eq_def]

theorem serVal_jobj_cons (k : List Char) (v : JVal) (kvs : List (List Char × JVal)) :
    serVal (JVal.jobj ((k, v) :: kvs)) =
      '{' :: (serStr k ++ ':' :: ' ' :: serVal v ++ serObjRest kvs) ++ ['}'] := by
  rw [serVal.eq_def]

theorem serArrRest_cons (x : JVal) (xs : List JVal) :
    serArrRest (x :: xs) = ',' :: ' ' :: serVal x ++ serArrRest xs := by
  rw [serArrRest.eq_def]

theorem serObjRest_cons (k : List Char) (v : JVal) (kvs : List (List Char × JVal)) :
    serObjRest ((k, v) :: kvs) = ',' :: ' ' :: serStr k ++ ':' :: ' ' :: serVal v ++
      serObjRest kvs := by
  rw [serObjRest.eq_def]

theorem ws_space : ∀ c ∈ [' '], isJsonWs c = true := by
  intro c hc
  simp only [List.mem_singleton] at hc
  subst hc
  rfl

theorem noDigitHead_serArrRest (xs : List JVal) (rest : List Char) :
    noDigitHead (serArrRest xs ++ ']' :: rest) := by
  cases xs with
  | nil =>
    intro c hc
    rw [serArrRest.eq_def] at hc
    simp at hc
    subst hc
    rfl
  | cons y ys =>
    intro c hc
    rw [serArrRest_cons] at hc
    simp at hc
    subst hc
    rfl

theorem noDigitHead_serObjRest (kvs : List (List Char × JVal)) (rest : List Char) :
    noDigitHead (serObjRest kvs ++ '}' :: rest) := by
  cases kvs with
  | nil =>
    intro c hc
    rw [serObjRest.eq_def] at hc
    simp at hc
    subst hc
    rfl
  | cons kv t =>
    rcases kv with ⟨k2, v2⟩
    intro c hc
    rw [serObjRest_cons] at hc
    simp at hc
    subst hc
    rfl

theorem serVal_head (v : JVal) :
    ∃ c t, serVal v = c :: t ∧ isJsonWs c = false ∧ isPyWs c = false ∧
      ¬(c = '`') ∧ ¬(c = ']') ∧ ¬(c = '}') := by
  cases v with
  | jnull => exact ⟨'n', _, rfl, by decide, by decide, by decide, by decide, by decide⟩
  | jbool b =>
    cases b with
    | true => exact ⟨'t', _, rfl, by decide, by decide, by decide, by decide, by decide⟩
    | false => exact ⟨'f', _, rfl, by decide, by decide, by decide, by decide, by decide⟩
  | jnum n =>
    rw [serVal_jnum]
    by_cases hn : n < 0
    · exact ⟨'-', _, by rw [intToChars, if_pos hn], by decide, by decide, by decide,
        by decide, by decide⟩
    · obtain ⟨c, t, hct, hdig, _⟩ := natToChars_head n.natAbs
      have hd : 48 ≤ c.toNat ∧ c.toNat ≤ 57 := by
        simpa [isDigitC] using hdig
      refine ⟨c, t, by rw [intToChars, if_neg hn, hct], isJsonWs_of_digit c hdig,
        isPyWs_of_digit c hdig, ?_, ?_, ?_⟩ <;>
        (intro e; subst e; revert hd; decide)
  | jstr s => exact ⟨'"', escList s ++ ['"'], by rw [serVal_jstr]; rfl, by decide,
      by decide, by decide, by decide, by decide⟩
  | jarr xs =>
    cases xs with
    | nil => exact ⟨'[', _, by rw [serVal.eq_def], by decide, by decide, by decide,
        by decide, by decide⟩
    | cons x xs => exact ⟨'[', _, by rw [serVal_jarr_cons]; rfl, by decide, by decide,
        by decide, by decide, by decide⟩
  | jobj kvs =>
    cases kvs with
    | nil => exact ⟨'{', _, by rw [serVal.eq_def], by decide, by decide, by decide,
        by decide, by decide⟩
    | cons kv t =>
      rcases kv with ⟨k, v⟩
      exact ⟨'{', _, by rw [serVal_jobj_cons]; rfl, by decide, by decide,
        by decide, by decide, by decide⟩


theorem parseItems_succ (f : Nat) (s : List Char) :
    parseItems (f + 1) s =
      match parseV f s with
      | none => none
      | some (v, r) =>
        match skipWs r with
        | [] => none
        | c :: r2 =>
          if c = ',' then (parseItems f r2).map (fun p => (v :: p.1, p.2))
          else if c = ']' then some ([v], r2)
          else none := by
  rw [parseItems.eq_def]

theorem parseFields_succ (f : Nat) (s : List Char) :
    parseFields (f + 1) s =
      match skipWs s with
      | [] => none
      | c :: r =>
        if c = '"' then
          match parseStrRest r with
          | none => none
          | some (k, r2) =>
            match skipWs r2 with
            | [] => none
            | c2 :: r3 =>
              if c2 = ':' then
                match parseV f r3 with
                | none => none
                | some (v, r4) =>
                  match skipWs r4 with
                  | [] => none
                  | c3 :: r5 =>
                    if c3 = ',' then (parseFields f r5).map (fun p => ((k, v) :: p.1, p.2))
                    else if c3 = '}' then some ([(k, v)], r5)
                    else none
              else none
        else none := by
  rw [parseFields.eq_def]

mutual
theorem parseV_serVal (v : JVal) (fuel : Nat) (rest : List Char)
    (hf : jsize v ≤ fuel) (hr : noDigitHead rest) :
    parseV fuel (serVal v ++ rest) = some (v, rest) := by
  obtain ⟨f, rfl⟩ : ∃ f, fuel = f + 1 := ⟨fuel - 1, by have := jsize_pos v; omega⟩
  cases v with
  | jnull =>
    rw [show serVal JVal.jnull = ['n', 'u', 'l', 'l'] from rfl]
    simp only [List.cons_append, List.nil_append]
    rw [parseV_cons f 'n' _ (by decide)]
    simp [parseCore]
  | jbool b =>
    cases b with
    | true =>
      rw [show serVal (JVal.jbool true) = ['t', 'r', 'u', 'e'] from rfl]
      simp only [List.cons_append, List.nil_append]
      rw [parseV_cons f 't' _ (by decide)]
      simp [parseCore]
    | false =>
      rw [show serVal (JVal.jbool false) = ['f', 'a', 'l', 's', 'e'] from rfl]
      simp only [List.cons_append, List.nil_append]
      rw [parseV_cons f 'f' _ (by decide)]
      simp [parseCore]
  | jnum n =>
    rw [serVal_jnum]
    by_cases hn : n < 0
    · rw [intToChars, if_pos hn]
      simp only [List.cons_append]
      rw [parseV_cons f '-' _ (by decide)]
      have hcore : parseCore (fun t => parseItems f t) (fun t => parseFields f t) '-'
          (natToChars n.natAbs ++ rest) =
          (parseDigits (natToChars n.natAbs ++ rest)).map
            (fun p => (JVal.jnum (-(p.1 : Int)), p.2)) := rfl
      rw [hcore, parseDigits_natToChars n.natAbs rest hr]
      have hval : -((n.natAbs : Nat) : Int) = n := by omega
      show some (JVal.jnum (-((n.natAbs : Nat) : Int)), rest) = some (JVal.jnum n, rest)
      rw [hval]
    · rw [intToChars, if_neg hn]
      obtain ⟨c, t, hct, hdig, _⟩ := natToChars_head n.natAbs
      rw [hct]
      simp only [List.cons_append]
      rw [parseV_cons f c _ (isJsonWs_of_digit c hdig)]
      rw [parseCore_digit _ _ c _ hdig]
      rw [show c :: (t ++ rest) = (c :: t) ++ rest from rfl, ← hct]
      rw [parseDigits_natToChars n.natAbs rest hr]
      have hval : ((n.natAbs : Nat) : Int) = n := by omega
      show some (JVal.jnum ((n.natAbs : Nat) : Int), rest) = some (JVal.jnum n, rest)
      rw [hval]
  | jstr s =>
    rw [serVal_jstr, serStr]
    simp only [List.cons_append, List.append_assoc, List.singleton_append, List.nil_append]
    rw [parseV_cons f '"' _ (by decide)]
    have hcore : parseCore (fun t => parseItems f t) (fun t => parseFields f t) '"'
        (escList s ++ '"' :: rest) =
        (parseStrRest (escList s ++ '"' :: rest)).map (fun p => (JVal.jstr p.1, p.2)) := rfl
    rw [hcore, parseStrRest_escList s rest]
    rfl
  | jarr xs =>
    cases xs with
    | nil =>
      rw [show serVal (JVal.jarr []) = ['[', ']'] from rfl]
      simp only [List.cons_append, List.nil_append]
      rw [parseV_cons f '[' _ (by decide)]
      have hsk : skipWs (']' :: rest) = ']' :: rest := skipWs_cons _ _ (by decide)
      show (match skipWs (']' :: rest) with
        | [] => (parseItems f []).map (fun (p : List JVal × List Char) => (JVal.jarr p.1, p.2))
        | c2 :: r2 =>
          if c2 = ']' then some (JVal.jarr [], r2)
          else (parseItems f (c2 :: r2)).map
            (fun (p : List JVal × List Char) => (JVal.jarr p.1, p.2))) = some (JVal.jarr [], rest)
      rw [hsk]
      show (if (']' : Char) = ']' then some (JVal.jarr [], rest)
        else (parseItems f (']' :: rest)).map
          (fun (p : List JVal × List Char) => (JVal.jarr p.1, p.2))) = some (JVal.jarr [], rest)
      rw [if_pos rfl]
    | cons x xs =>
      rw [serVal_jarr_cons]
      simp only [List.cons_append, List.append_assoc, List.singleton_append, List.nil_append]
      rw [parseV_cons f '[' _ (by decide)]
      obtain ⟨c0, t0, hc0, hws0, hpy0, hbt0, hrb0, hcb0⟩ := serVal_head x
      have hsk : skipWs (serVal x ++ (serArrRest xs ++ ']' :: rest)) =
          c0 :: (t0 ++ (serArrRest xs ++ ']' :: rest)) := by
        rw [hc0]
        simp only [List.cons_append]
        exact skipWs_cons _ _ hws0
      rw [parseCore_lbrack _ _ _ c0 _ hsk hrb0]
      rw [show c0 :: (t0 ++ (serArrRest xs ++ ']' :: rest)) =
        serVal x ++ (serArrRest xs ++ ']' :: rest) from by rw [hc0]; rfl]
      rw [parseItems_ser x xs f rest (by rw [jsize_jarr] at hf; omega)]
      rfl
  | jobj kvs =>
    cases kvs with
    | nil =>
      rw [show serVal (JVal.jobj []) = ['{', '}'] from rfl]
      simp only [List.cons_append, List.nil_append]
      rw [parseV_cons f '{' _ (by decide)]
      have hsk : skipWs ('}' :: rest) = '}' :: rest := skipWs_cons _ _ (by decide)
      show (match skipWs ('}' :: rest) with
        | [] => (parseFields f []).map
            (fun (p : List (List Char × JVal) × List Char) => (JVal.jobj p.1, p.2))
        | c2 :: r2 =>
          if c2 = '}' then some (JVal.jobj [], r2)
          else (parseFields f (c2 :: r2)).map
            (fun (p : List (List Char × JVal) × List Char) => (JVal.jobj p.1, p.2))) =
        some (JVal.jobj [], rest)
      rw [hsk]
      show (if ('}' : Char) = '}' then some (JVal.jobj [], rest)
        else (parseFields f ('}' :: rest)).map
          (fun (p : List (List Char × JVal) × List Char) => (JVal.jobj p.1, p.2))) =
        some (JVal.jobj [], rest)
      rw [if_pos rfl]
    | cons kv kvs =>
      rcases kv with ⟨k, v0⟩
      rw [serVal_jobj_cons, serStr]
      simp only [List.cons_append, List.append_assoc, List.singleton_append, List.nil_append]
      rw [parseV_cons f '{' _ (by decide)]
      have hsk : skipWs ('"' :: (escList k ++ '"' :: ':' :: ' ' ::
          (serVal v0 ++ (serObjRest kvs ++ '}' :: rest)))) =
          '"' :: (escList k ++ '"' :: ':' :: ' ' ::
            (serVal v0 ++ (serObjRest kvs ++ '}' :: rest))) :=
        skipWs_cons _ _ (by decide)
      rw [parseCore_lbrace _ _ _ '"' _ hsk (by decide)]
      rw [parseFields_ser k v0 kvs f rest (by rw [jsize_jobj] at hf; omega)]
      rfl

termination_by fuel
decreasing_by all_goals omega

theorem parseItems_ser (x : JVal) (xs : List JVal) (fuel : Nat) (rest : List Char)
    (hf : jsizeList (x :: xs) ≤ fuel) :
    parseItems fuel (serVal x ++ (serArrRest xs ++ ']' :: rest)) = some (x :: xs, rest) := by
  obtain ⟨f, rfl⟩ : ∃ f, fuel = f + 1 := ⟨fuel - 1, by have := jsizeList_pos (x :: xs); omega⟩
  have hx : jsize x ≤ f := by
    rw [jsizeList_cons] at hf
    have := jsizeList_pos xs
    omega
  rw [parseItems_succ f _]
  rw [parseV_serVal x f _ hx (noDigitHead_serArrRest xs rest)]
  cases xs with
  | nil =>
    rw [serArrRest_nil]
    simp only [List.nil_append]
    have hsk : skipWs (']' :: rest) = ']' :: rest := skipWs_cons _ _ (by decide)
    show (match skipWs (']' :: rest) with
      | [] => none
      | c :: r2 =>
        if c = ',' then (parseItems f r2).map (fun (p : List JVal × List Char) => (x :: p.1, p.2))
        else if c = ']' then some ([x], r2)
        else none) = some ([x], rest)
    rw [hsk]
    show (if (']' : Char) = ',' then
        (parseItems f rest).map (fun (p : List JVal × List Char) => (x :: p.1, p.2))
      else if (']' : Char) = ']' then some ([x], rest)
      else none) = some ([x], rest)
    rw [if_neg (by decide), if_pos rfl]
  | cons y ys =>
    rw [serArrRest_cons]
    simp only [List.cons_append, List.append_assoc]
    have hsk : skipWs (',' :: ' ' :: (serVal y ++ (serArrRest ys ++ ']' :: rest))) =
        ',' :: ' ' :: (serVal y ++ (serArrRest ys ++ ']' :: rest)) :=
      skipWs_cons _ _ (by decide)
    show (match skipWs (',' :: ' ' :: (serVal y ++ (serArrRest ys ++ ']' :: rest))) with
      | [] => none
      | c :: r2 =>
        if c = ',' then (parseItems f r2).map (fun (p : List JVal × List Char) => (x :: p.1, p.2))
        else if c = ']' then some ([x], r2)
        else none) = some (x :: y :: ys, rest)
    rw [hsk]
    show (if (',' : Char) = ',' then
        (parseItems f (' ' :: (serVal y ++ (serArrRest ys ++ ']' :: rest)))).map
          (fun (p : List JVal × List Char) => (x :: p.1, p.2))
      else if (',' : Char) = ']' then
        some ([x], ' ' :: (serVal y ++ (serArrRest ys ++ ']' :: rest)))
      else none) = some (x :: y :: ys, rest)
    rw [if_pos rfl]
    rw [show (' ' :: (serVal y ++ (serArrRest ys ++ ']' :: rest))) =
      [' '] ++ (serVal y ++ (serArrRest ys ++ ']' :: rest)) from rfl]
    rw [parseItems_ws f [' '] _ ws_space]
    rw [parseItems_ser y ys f rest (by
      rw [jsizeList_cons, jsizeList_cons] at hf
      rw [jsizeList_cons]
      have := jsize_pos x
      omega)]
    rfl

termination_by fuel
decreasing_by all_goals omega

theorem parseFields_ser (k : List Char) (v : JVal) (kvs : List (List Char × JVal))
    (fuel : Nat) (rest : List Char) (hf : jsizeFields ((k, v) :: kvs) ≤ fuel) :
    parseFields fuel ('"' :: (escList k ++ '"' :: ':' :: ' ' ::
      (serVal v ++ (serObjRest kvs ++ '}' :: rest)))) = some ((k, v) :: kvs, rest) := by
  obtain ⟨f, rfl⟩ : ∃ f, fuel = f + 1 :=
    ⟨fuel - 1, by have := jsizeFields_pos ((k, v) :: kvs); omega⟩
  have hv : jsize v ≤ f := by
    rw [jsizeFields_cons] at hf
    have := jsizeFields_pos kvs
    omega
  rw [parseFields_succ f _]
  rw [skipWs_cons _ _ (by decide)]
  show (if ('"' : Char) = '"' then
      match parseStrRest (escList k ++ '"' :: ':' :: ' ' ::
        (serVal v ++ (serObjRest kvs ++ '}' :: rest))) with
      | none => none
      | some (k2, r2) =>
        match skipWs r2 with
        | [] => none
        | c2 :: r3 =>
          if c2 = ':' then
            match parseV f r3 with
            | none => none
            | some (v2, r4) =>
              match skipWs r4 with
              | [] => none
              | c3 :: r5 =>
                if c3 = ',' then (parseFields f r5).map
                    (fun (p : List (List Char × JVal) × List Char) => ((k2, v2) :: p.1, p.2))
                else if c3 = '}' then some ([(k2, v2)], r5)
                else none
          else none
      else none) = some ((k, v) :: kvs, rest)
  rw [if_pos rfl]
  rw [parseStrRest_escList k (':' :: ' ' :: (serVal v ++ (serObjRest kvs ++ '}' :: rest)))]
  show (match skipWs (':' :: ' ' :: (serVal v ++ (serObjRest kvs ++ '}' :: rest))) with
    | [] => none
    | c2 :: r3 =>
      if c2 = ':' then
        match parseV f r3 with
        | none => none
        | some (v2, r4) =>
          match skipWs r4 with
          | [] => none
          | c3 :: r5 =>
            if c3 = ',' then (parseFields f r5).map
                (fun (p : List (List Char × JVal) × List Char) => ((k, v2) :: p.1, p.2))
            else if c3 = '}' then some ([(k, v2)], r5)
            else none
      else none) = some ((k, v) :: kvs, rest)
  rw [show skipWs (':' :: ' ' :: (serVal v ++ (serObjRest kvs ++ '}' :: rest))) =
    ':' :: ' ' :: (serVal v ++ (serObjRest kvs ++ '}' :: rest)) from
    skipWs_cons _ _ (by decide)]
  show (if (':' : Char) = ':' then
      match parseV f (' ' :: (serVal v ++ (serObjRest kvs ++ '}' :: rest))) with
      | none => none
      | some (v2, r4) =>
        match skipWs r4 with
        | [] => none
        | c3 :: r5 =>
          if c3 = ',' then (parseFields f r5).map
              (fun (p : List (List Char × JVal) × List Char) => ((k, v2) :: p.1, p.2))
          else if c3 = '}' then some ([(k, v2)], r5)
          else none
    else none) = some ((k, v) :: kvs, rest)
  rw [if_pos rfl]
  rw [show (' ' :: (serVal v ++ (serObjRest kvs ++ '}' :: rest))) =
    [' '] ++ (serVal v ++ (serObjRest kvs ++ '}' :: rest)) from rfl]
  rw [parseV_ws f [' '] _ ws_space]
  rw [parseV_serVal v f _ hv (noDigitHead_serObjRest kvs rest)]
  cases kvs with
  | nil =>
    rw [serObjRest_nil]
    simp only [List.nil_append]
    rw [show skipWs ('}' :: rest) = '}' :: rest from skipWs_cons _ _ (by decide)]
    show (if ('}' : Char) = ',' then (parseFields f rest).map
        (fun (p : List (List Char × JVal) × List Char) => ((k, v) :: p.1, p.2))
      else if ('}' : Char) = '}' then some ([(k, v)], rest)
      else none) = some ([(k, v)], rest)
    rw [if_neg (by decide), if_pos rfl]
  | cons kv2 t =>
    rcases kv2 with ⟨k2, v2⟩
    rw [serObjRest_cons, serStr]
    simp only [List.cons_append, List.append_assoc, List.singleton_append, List.nil_append]
    rw [show skipWs (',' :: ' ' :: '"' :: (escList k2 ++ '"' :: ':' :: ' ' ::
      (serVal v2 ++ (serObjRest t ++ '}' :: rest)))) =
      ',' :: ' ' :: '"' :: (escList k2 ++ '"' :: ':' :: ' ' ::
        (serVal v2 ++ (serObjRest t ++ '}' :: rest))) from skipWs_cons _ _ (by decide)]
    show (if (',' : Char) = ',' then
        (parseFields f (' ' :: '"' :: (escList k2 ++ '"' :: ':' :: ' ' ::
          (serVal v2 ++ (serObjRest t ++ '}' :: rest))))).map
          (fun (p : List (List Char × JVal) × List Char) => ((k, v) :: p.1, p.2))
      else if (',' : Char) = '}' then
        some ([(k, v)], ' ' :: '"' :: (escList k2 ++ '"' :: ':' :: ' ' ::
          (serVal v2 ++ (serObjRest t ++ '}' :: rest))))
      else none) = some ((k, v) :: (k2, v2) :: t, rest)
    rw [if_pos rfl]
    rw [show (' ' :: '"' :: (escList k2 ++ '"' :: ':' :: ' ' ::
      (serVal v2 ++ (serObjRest t ++ '}' :: rest)))) =
      [' '] ++ ('"' :: (escList k2 ++ '"' :: ':' :: ' ' ::
        (serVal v2 ++ (serObjRest t ++ '}' :: rest)))) from rfl]
    rw [parseFields_ws f [' '] _ ws_space]
    rw [parseFields_ser k2 v2 t f rest (by
      rw [jsizeFields_cons, jsizeFields_cons] at hf
      rw [jsizeFields_cons]
      have := jsize_pos v
      omega)]
    rfl
termination_by fuel
decreasing_by all_goals omega
end


mutual
theorem jsize_le_len : (v : JVal) → jsize v ≤ 2 * (serVal v).length
  | JVal.jnull => by
    rw [jsize_jnull, show serVal JVal.jnull = ['n', 'u', 'l', 'l'] from rfl]
    simp
  | JVal.jbool true => by
    rw [jsize_jbool, show serVal (JVal.jbool true) = ['t', 'r', 'u', 'e'] from rfl]
    simp
  | JVal.jbool false => by
    rw [jsize_jbool, show serVal (JVal.jbool false) = ['f', 'a', 'l', 's', 'e'] from rfl]
    simp
  | JVal.jnum n => by
    rw [jsize_jnum, serVal_jnum]
    have h1 : natToChars n.natAbs ≠ [] := natToChars_ne_nil n.natAbs
    have h2 : 1 ≤ (natToChars n.natAbs).length := by
      cases hcase : natToChars n.natAbs with
      | nil => exact absurd hcase h1
      | cons a t => simp
    rw [intToChars]
    by_cases hn : n < 0
    · rw [if_pos hn]; simp; omega
    · rw [if_neg hn]; omega
  | JVal.jstr s => by
    rw [jsize_jstr, serVal_jstr, serStr]
    simp
    omega
  | JVal.jarr [] => by
    rw [jsize_jarr, jsizeList_nil, show serVal (JVal.jarr []) = ['[', ']'] from rfl]
    simp
  | JVal.jarr (x :: xs) => by
    have hb := jsizeList_le_len x xs
    rw [jsize_jarr, serVal_jarr_cons]
    simp only [List.length_cons, List.length_append, List.length_singleton]
    omega
  | JVal.jobj [] => by
    rw [jsize_jobj, jsizeFields_nil, show serVal (JVal.jobj []) = ['{', '}'] from rfl]
    simp
  | JVal.jobj ((k, v) :: kvs) => by
    have hb := jsizeFields_le_len k v kvs
    rw [jsize_jobj, serVal_jobj_cons]
    simp only [List.length_cons, List.length_append, List.length_singleton]
    omega
termination_by v => sizeOf v
decreasing_by all_goals (first | omega | (simp; omega) | simp)

theorem jsizeList_le_len : (x : JVal) → (xs : List JVal) →
    jsizeList (x :: xs) ≤ 2 * ((serVal x).length + (serArrRest xs).length) + 2
  | x, [] => by
    have ha := jsize_le_len x
    rw [jsizeList_cons, jsizeList_nil, serArrRest_nil]
    simp
    omega
  | x, y :: ys => by
    have ha := jsize_le_len x
    have hb := jsizeList_le_len y ys
    rw [jsizeList_cons, serArrRest_cons]
    simp only [List.length_cons, List.length_append]
    omega
termination_by x xs => sizeOf x + sizeOf xs
decreasing_by all_goals (first | omega | (simp; omega) | simp)

theorem jsizeFields_le_len : (k : List Char) → (v : JVal) → (kvs : List (List Char × JVal)) →
    jsizeFields ((k, v) :: kvs) ≤ 2 * ((serVal v).length + (serObjRest kvs).length) + 2
  | _k, v, [] => by
    have ha := jsize_le_len v
    rw [jsizeFields_cons, jsizeFields_nil, serObjRest_nil]
    simp
    omega
  | k, v, (k2, v2) :: t => by
    have ha := jsize_le_len v
    have hb := jsizeFields_le_len k2 v2 t
    rw [jsizeFields_cons, serObjRest_cons]
    simp only [List.length_cons, List.length_append]
    omega
termination_by k v kvs => sizeOf v + sizeOf kvs
decreasing_by all_goals (first | omega | (simp; omega) | simp)
end

theorem noDigitHead_nil : noDigitHead [] := by
  intro c hc
  simp at hc

theorem loads_serVal (v : JVal) : loads (serVal v) = some v := by
  have hb := jsize_le_len v
  have h := parseV_serVal v (2 * (serVal v).length + 2) [] (by omega) noDigitHead_nil
  rw [List.append_nil] at h
  show (match parseV (2 * (serVal v).length + 2) (serVal v) with
    | some (w, r) => if skipWs r = [] then some w else none
    | none => none) = some v
  rw [h]
  rfl


theorem natToChars_last (m : Nat) :
    ∃ t d, natToChars m = t ++ [digitChar d] ∧ d ≤ 9 := by
  by_cases hm : m = 0
  · subst hm
    exact ⟨[], 0, rfl, by omega⟩
  · rcases m with _ | mm
    · omega
    · refine ⟨natToCharsAux mm ((mm + 1) / 10), (mm + 1) % 10, ?_, by omega⟩
      rw [natToChars, if_neg hm]
      rw [natToCharsAux.eq_2 (mm + 1) mm]
      rw [if_neg hm]

theorem digitChar_props (d : Nat) (h : d ≤ 9) :
    isPyWs (digitChar d) = false ∧ ¬(digitChar d = '`') := by
  constructor
  · exact isPyWs_of_digit _ (isDigitC_digitChar d h)
  · intro e
    have := congrArg Char.toNat e
    rw [digitChar_toNat d h] at this
    simp only [show ('`').toNat = 96 from rfl] at this
    omega

theorem serVal_last (v : JVal) :
    ∃ t c, serVal v = t ++ [c] ∧ isPyWs c = false ∧ ¬(c = '`') := by
  cases v with
  | jnull => exact ⟨['n', 'u', 'l'], 'l', rfl, by decide, by decide⟩
  | jbool b =>
    cases b with
    | true => exact ⟨['t', 'r', 'u'], 'e', rfl, by decide, by decide⟩
    | false => exact ⟨['f', 'a', 'l', 's'], 'e', rfl, by decide, by decide⟩
  | jnum n =>
    obtain ⟨t, d, htd, hd9⟩ := natToChars_last n.natAbs
    obtain ⟨hws, hbt⟩ := digitChar_props d hd9
    rw [serVal_jnum, intToChars]
    by_cases hn : n < 0
    · exact ⟨'-' :: t, digitChar d, by simp [hn, htd], hws, hbt⟩
    · exact ⟨t, digitChar d, by simp [hn, htd], hws, hbt⟩
  | jstr s =>
    exact ⟨'"' :: escList s, '"', by simp [serVal_jstr, serStr], by decide, by decide⟩
  | jarr xs =>
    cases xs with
    | nil => exact ⟨['['], ']', rfl, by decide, by decide⟩
    | cons x t =>
      exact ⟨'[' :: (serVal x ++ serArrRest t), ']', by simp [serVal_jarr_cons],
        by decide, by decide⟩
  | jobj kvs =>
    cases kvs with
    | nil => exact ⟨['{'], '}', rfl, by decide, by decide⟩
    | cons kv t =>
      rcases kv with ⟨k, v0⟩
      exact ⟨'{' :: (serStr k ++ ':' :: ' ' :: serVal v0 ++ serObjRest t), '}',
        by simp [serVal_jobj_cons], by decide, by decide⟩

theorem pstrip_eq_self (s : List Char) (c0 : Char) (t0 : List Char)
    (hhead : s = c0 :: t0) (h0 : isPyWs c0 = false)
    (t1 : List Char) (c1 : Char) (hlast : s = t1 ++ [c1]) (h1 : isPyWs c1 = false) :
    pstrip s = s := by
  have hd : s.dropWhile isPyWs = s := by
    rw [hhead]
    simp [List.dropWhile_cons, h0]
  have hrev : s.reverse.dropWhile isPyWs = s.reverse := by
    rw [hlast]
    simp [List.reverse_append, List.dropWhile_cons, h1]
  show ((s.dropWhile isPyWs).reverse.dropWhile isPyWs).reverse = s
  rw [hd, hrev, List.reverse_reverse]

theorem hasPre_cons_false (p : Char) (ps : List Char) (c : Char) (cs : List Char)
    (h : ¬(p = c)) : hasPre (p :: ps) (c :: cs) = false := by
  simp [hasPre, h]

theorem clean_serVal (v : JVal) : clean (serVal v) = serVal v := by
  obtain ⟨c0, t0, hc0, _, hpy0, hbt0, _, _⟩ := serVal_head v
  obtain ⟨t1, c1, hc1, hpy1, hbt1⟩ := serVal_last v
  have hps : pstrip (serVal v) = serVal v := pstrip_eq_self _ c0 t0 hc0 hpy0 t1 c1 hc1 hpy1
  have hpre : hasPre fenceOpen (serVal v) = false := by
    rw [hc0, fenceOpen]
    exact hasPre_cons_false _ _ _ _ (fun e => hbt0 e.symm)
  have hsuf : hasSuf fenceClose (serVal v) = false := by
    rw [hasSuf, hc1, fenceClose]
    rw [List.reverse_append]
    show hasPre ['`', '`', '`'] (c1 :: t1.reverse) = false
    exact hasPre_cons_false _ _ _ _ (fun e => hbt1 e.symm)
  show pstrip (if hasSuf fenceClose
      (if hasPre fenceOpen (pstrip (serVal v)) then (pstrip (serVal v)).drop 7
        else pstrip (serVal v)) then _ else _) = serVal v
  rw [hps, hpre]
  simp only [Bool.false_eq_true, if_false]
  rw [hsuf]
  simp only [Bool.false_eq_true, if_false]
  exact hps

theorem serVal_ne_nil (v : JVal) : serVal v ≠ [] := by
  obtain ⟨c0, t0, hc0, _⟩ := serVal_head v
  rw [hc0]
  simp

/-- C5: round-trip: for every JSON value V of the modelled fragment, the
Normalizer `_safe_json_loads` applied to the `json.dumps` serialization
`serVal V` returns V itself. -/
theorem normalizer_roundtrip (v : JVal) : _safe_json_loads (some (serVal v)) = some v := by
  show (if serVal v = [] then none
    else match loads (clean (serVal v)) with
      | some w => some w
      | none =>
        match extractBraced (clean (serVal v)) with
        | some t => loads t
        | none => none) = some v
  rw [if_neg (serVal_ne_nil v), clean_serVal v, loads_serVal v]


/-- Lists containing no brace character. -/
def BraceFree (l : List Char) : Prop := ∀ c ∈ l, ¬(c = '{') ∧ ¬(c = '}')

/-- One list arises from another by removing a brace-free prefix and suffix. -/
def Peeled (s t : List Char) : Prop :=
  ∃ p q, BraceFree p ∧ BraceFree q ∧ s = p ++ t ++ q

theorem braceFree_nil : BraceFree [] := by
  intro c hc
  simp at hc

theorem braceFree_append (p q : List Char) (hp : BraceFree p) (hq : BraceFree q) :
    BraceFree (p ++ q) := by
  intro c hc
  rcases List.mem_append.mp hc with h | h
  · exact hp c h
  · exact hq c h

theorem peeled_refl (s : List Char) : Peeled s s :=
  ⟨[], [], braceFree_nil, braceFree_nil, by simp⟩

theorem peeled_trans (a b c : List Char) (h1 : Peeled a b) (h2 : Peeled b c) :
    Peeled a c := by
  obtain ⟨p1, q1, hp1, hq1, rfl⟩ := h1
  obtain ⟨p2, q2, hp2, hq2, rfl⟩ := h2
  exact ⟨p1 ++ p2, q2 ++ q1, braceFree_append _ _ hp1 hp2, braceFree_append _ _ hq2 hq1,
    by simp [List.append_assoc]⟩

theorem isPyWs_not_brace (c : Char) (h : isPyWs c = true) : ¬(c = '{') ∧ ¬(c = '}') := by
  simp only [isPyWs, decide_eq_true_eq] at h
  constructor <;> intro e <;> subst e <;> revert h <;> decide

theorem takeWhile_pred (p : Char → Bool) (l : List Char) :
    ∀ c ∈ l.takeWhile p, p c = true := by
  induction l with
  | nil => intro c hc; simp at hc
  | cons a t ih =>
    intro c hc
    by_cases ha : p a = true
    · rw [List.takeWhile_cons, if_pos ha] at hc
      rcases List.mem_cons.mp hc with h | h
      · subst h; exact ha
      · exact ih c h
    · rw [List.takeWhile_cons, if_neg ha] at hc
      simp at hc

theorem peeled_pstrip (s : List Char) : Peeled s (pstrip s) := by
  refine ⟨s.takeWhile isPyWs,
    ((s.dropWhile isPyWs).reverse.takeWhile isPyWs).reverse, ?_, ?_, ?_⟩
  · intro c hc
    exact isPyWs_not_brace c (takeWhile_pred isPyWs s c hc)
  · intro c hc
    exact isPyWs_not_brace c
      (takeWhile_pred isPyWs (s.dropWhile isPyWs).reverse c (List.mem_reverse.mp hc))
  · show s = s.takeWhile isPyWs ++ pstrip s ++ _
    have h1 : s.dropWhile isPyWs =
        pstrip s ++ ((s.dropWhile isPyWs).reverse.takeWhile isPyWs).reverse := by
      show _ = ((s.dropWhile isPyWs).reverse.dropWhile isPyWs).reverse ++ _
      have h2 := List.takeWhile_append_dropWhile isPyWs (s.dropWhile isPyWs).reverse
      have h3 := congrArg List.reverse h2
      rw [List.reverse_append, List.reverse_reverse] at h3
      exact h3.symm
    conv_lhs => rw [← List.takeWhile_append_dropWhile isPyWs s]
    rw [List.append_assoc, ← h1]

theorem hasPre_drop (p : List Char) : ∀ s, hasPre p s = true → s = p ++ s.drop p.length := by
  induction p with
  | nil => intro s _; simp
  | cons a ps ih =>
    intro s h
    cases s with
    | nil => simp [hasPre] at h
    | cons c cs =>
      simp only [hasPre, Bool.and_eq_true, decide_eq_true_eq] at h
      obtain ⟨rfl, h2⟩ := h
      simp only [List.length_cons, List.drop_succ_cons, List.cons_append, List.cons.injEq,
        true_and]
      exact ih cs h2

theorem hasSuf_take (p s : List Char) (h : hasSuf p s = true) :
    s = s.take (s.length - p.length) ++ p := by
  have h1 := hasPre_drop p.reverse s.reverse h
  have h2 := congrArg List.reverse h1
  rw [List.reverse_reverse, List.reverse_append, List.reverse_reverse] at h2
  have h3 : (s.reverse.drop p.reverse.length).reverse = s.take (s.length - p.length) := by
    rw [List.length_reverse, ← List.rdrop_eq_reverse_drop_reverse]
    rfl
  rw [h3] at h2
  exact h2

theorem braceFree_fenceOpen : BraceFree fenceOpen := by
  intro c hc
  rw [fenceOpen] at hc
  fin_cases hc <;> exact ⟨by decide, by decide⟩

theorem braceFree_fenceClose : BraceFree fenceClose := by
  intro c hc
  rw [fenceClose] at hc
  fin_cases hc <;> exact ⟨by decide, by decide⟩

theorem peeled_clean (s : List Char) : Peeled s (clean s) := by
  have step1 : Peeled s (pstrip s) := peeled_pstrip s
  have step2 : Peeled (pstrip s)
      (if hasPre fenceOpen (pstrip s) then (pstrip s).drop 7 else pstrip s) := by
    by_cases h : hasPre fenceOpen (pstrip s) = true
    · rw [if_pos h]
      exact ⟨fenceOpen, [], braceFree_fenceOpen, braceFree_nil,
        by rw [List.append_nil]; exact hasPre_drop fenceOpen (pstrip s) h⟩
    · rw [if_neg h]
      exact peeled_refl _
  set s2 := if hasPre fenceOpen (pstrip s) then (pstrip s).drop 7 else pstrip s with hs2
  have step3 : Peeled s2 (if hasSuf fenceClose s2 then s2.take (s2.length - 3) else s2) := by
    by_cases h : hasSuf fenceClose s2 = true
    · rw [if_pos h]
      refine ⟨[], fenceClose, braceFree_nil, braceFree_fenceClose, ?_⟩
      rw [List.nil_append]
      exact hasSuf_take fenceClose s2 h
    · rw [if_neg h]
      exact peeled_refl _
  set s3 := if hasSuf fenceClose s2 then s2.take (s2.length - 3) else s2 with hs3
  have step4 : Peeled s3 (pstrip s3) := peeled_pstrip s3
  have hclean : clean s = pstrip s3 := rfl
  rw [hclean]
  exact peeled_trans _ _ _ (peeled_trans _ _ _ (peeled_trans _ _ _ step1 step2) step3) step4

theorem dui_not_mem (ch : Char) (l : List Char) (h : ∀ c ∈ l, ¬(c = ch)) :
    dropUntilIncl ch l = none := by
  induction l with
  | nil => rfl
  | cons c t ih =>
    show (if c = ch then some (c :: t) else dropUntilIncl ch t) = none
    rw [if_neg (h c (by simp))]
    exact ih (fun c2 hc2 => h c2 (by simp [hc2]))

theorem dui_append (ch : Char) (m q : List Char) :
    dropUntilIncl ch (m ++ q) =
      match dropUntilIncl ch m with
      | some u => some (u ++ q)
      | none => dropUntilIncl ch q := by
  induction m with
  | nil => rfl
  | cons c t ih =>
    show (if c = ch then some (c :: (t ++ q)) else dropUntilIncl ch (t ++ q)) = _
    by_cases hc : c = ch
    · rw [if_pos hc]
      show _ = (match (if c = ch then some (c :: t) else dropUntilIncl ch t) with
        | some u => some (u ++ q)
        | none => dropUntilIncl ch q)
      rw [if_pos hc]
      rfl
    · rw [if_neg hc, ih]
      show _ = (match (if c = ch then some (c :: t) else dropUntilIncl ch t) with
        | some u => some (u ++ q)
        | none => dropUntilIncl ch q)
      rw [if_neg hc]

theorem extractBraced_peeled (s t : List Char) (h : Peeled s t) :
    extractBraced s = extractBraced t := by
  obtain ⟨p, q, hp, hq, rfl⟩ := h
  rw [extractBraced, extractBraced, List.append_assoc]
  rw [dui_append '{' p (t ++ q), dui_not_mem '{' p (fun c hc => (hp c hc).1)]
  rw [dui_append '{' t q]
  cases hdui : dropUntilIncl '{' t with
  | none =>
    rw [dui_not_mem '{' q (fun c hc => (hq c hc).1)]
  | some u =>
    show ((dropUntilIncl '}' (u ++ q).reverse).map List.reverse) = _
    rw [List.reverse_append]
    rw [dui_append '}' q.reverse u.reverse]
    rw [dui_not_mem '}' q.reverse
      (fun c hc => (hq c (List.mem_reverse.mp hc)).2)]
    rfl

theorem extractBraced_clean (s : List Char) : extractBraced (clean s) = extractBraced s :=
  (extractBraced_peeled s (clean s) (peeled_clean s)).symm

theorem dropWhile_append_all (p : Char → Bool) (w X : List Char)
    (hw : ∀ c ∈ w, p c = true) : (w ++ X).dropWhile p = X.dropWhile p := by
  induction w with
  | nil => rfl
  | cons a t ih =>
    simp only [List.cons_append, List.dropWhile_cons, hw a (by simp), if_true]
    exact ih (fun c hc => hw c (by simp [hc]))

theorem pstrip_wrap (w1 w2 X : List Char)
    (hw1 : ∀ c ∈ w1, isPyWs c = true) (hw2 : ∀ c ∈ w2, isPyWs c = true)
    (c0 : Char) (t0 : List Char) (hX : X = c0 :: t0) (h0 : isPyWs c0 = false)
    (t1 : List Char) (c1 : Char) (hX2 : X = t1 ++ [c1]) (h1 : isPyWs c1 = false) :
    pstrip (w1 ++ X ++ w2) = X := by
  have hfwd : (w1 ++ X ++ w2).dropWhile isPyWs = X ++ w2 := by
    rw [List.append_assoc, dropWhile_append_all isPyWs w1 (X ++ w2) hw1]
    rw [hX, List.cons_append, List.dropWhile_cons, h0]
    simp
  have hbwd : (X ++ w2).reverse.dropWhile isPyWs = X.reverse := by
    rw [List.reverse_append,
      dropWhile_append_all isPyWs w2.reverse X.reverse
        (fun c hc => hw2 c (List.mem_reverse.mp hc))]
    rw [hX2, List.reverse_append, List.reverse_singleton, List.singleton_append,
      List.dropWhile_cons, h1]
    simp
  show (((w1 ++ X ++ w2).dropWhile isPyWs).reverse.dropWhile isPyWs).reverse = X
  rw [hfwd, hbwd, List.reverse_reverse]

theorem hasPre_append_self (p r : List Char) : hasPre p (p ++ r) = true := by
  induction p with
  | nil => rfl
  | cons a t ih => simp [hasPre, ih]

theorem clean_fenced (w1 w2 mid : List Char)
    (hw1 : ∀ c ∈ w1, isPyWs c = true) (hw2 : ∀ c ∈ w2, isPyWs c = true) :
    clean (w1 ++ (fenceOpen ++ mid ++ fenceClose) ++ w2) = pstrip mid := by
  have hX1 : fenceOpen ++ mid ++ fenceClose =
      '`' :: (['`', '`', 'j', 's', 'o', 'n'] ++ mid ++ fenceClose) := by
    simp [fenceOpen]
  have hX2 : fenceOpen ++ mid ++ fenceClose =
      ((fenceOpen ++ mid) ++ ['`', '`']) ++ ['`'] := by
    simp [fenceClose]
  have hps : pstrip (w1 ++ (fenceOpen ++ mid ++ fenceClose) ++ w2) =
      fenceOpen ++ mid ++ fenceClose :=
    pstrip_wrap w1 w2 _ hw1 hw2 _ _ hX1 (by decide) _ _ hX2 (by decide)
  have hpre : hasPre fenceOpen (fenceOpen ++ mid ++ fenceClose) = true := by
    rw [List.append_assoc]
    exact hasPre_append_self fenceOpen (mid ++ fenceClose)
  have hdrop : (fenceOpen ++ mid ++ fenceClose).drop 7 = mid ++ fenceClose := by
    rw [List.append_assoc]
    rw [show (7 : Nat) = fenceOpen.length from rfl]
    exact List.drop_left fenceOpen (mid ++ fenceClose)
  have hsuf : hasSuf fenceClose (mid ++ fenceClose) = true := by
    rw [hasSuf, List.reverse_append]
    exact hasPre_append_self fenceClose.reverse mid.reverse
  have htake : (mid ++ fenceClose).take ((mid ++ fenceClose).length - 3) = mid := by
    rw [show (mid ++ fenceClose).length - 3 = mid.length from by simp [fenceClose]]
    exact List.take_left mid fenceClose
  show pstrip (if hasSuf fenceClose
      (if hasPre fenceOpen (pstrip (w1 ++ (fenceOpen ++ mid ++ fenceClose) ++ w2))
        then (pstrip (w1 ++ (fenceOpen ++ mid ++ fenceClose) ++ w2)).drop 7
        else pstrip (w1 ++ (fenceOpen ++ mid ++ fenceClose) ++ w2))
      then _ else _) = pstrip mid
  rw [hps, hpre]
  simp only [if_true]
  rw [hdrop, hsuf]
  simp only [if_true]
  rw [htake]


theorem safe_json_loads_some (s : List Char) (hs : ¬(s = [])) :
    _safe_json_loads (some s) =
      match loads (clean s) with
      | some v => some v
      | none =>
        match extractBraced (clean s) with
        | some t => loads t
        | none => none := by
  show (if s = [] then none else _) = _
  rw [if_neg hs]

/-- C2: the Normalizer `_safe_json_loads` never throws on malformed input: it is a
total Lean function, and on an absent (`none`) input, on the empty string, and on
any text that is not valid JSON even after fence-stripping (`clean`) and
brace-substring recovery (`extractBraced`), it returns the fallback sentinel
(`none`) rather than raising. -/
theorem normalizer_never_throws :
    _safe_json_loads none = none ∧
    _safe_json_loads (some []) = none ∧
    ∀ s : List Char, loads (clean s) = none →
      (∀ t, extractBraced (clean s) = some t → loads t = none) →
      _safe_json_loads (some s) = none := by
  refine ⟨rfl, rfl, ?_⟩
  intro s h1 h2
  by_cases hs : s = []
  · subst hs; rfl
  · rw [safe_json_loads_some s hs, h1]
    cases hx : extractBraced (clean s) with
    | none => rfl
    | some t => exact h2 t hx

/-- Witness for C2 at the concrete input of the spec. -/
theorem normalizer_never_throws_witness : _safe_json_loads (some ("not json at all".toList)) = none := by
  refine normalizer_never_throws.2.2 ("not json at all".toList) (by rfl) ?_
  intro t ht
  rw [show extractBraced (clean ("not json at all".toList)) = none from rfl] at ht
  cases ht

/-- C4: when the cleaned text fails strict JSON parsing, `_safe_json_loads`
recovers the greedy first-open-brace-to-last-close-brace substring of the
unstripped text (`extractBraced s`, unchanged by cleaning) and returns its
strict parse when that succeeds; in particular the spec example recovers the
object with key a mapped to 1. -/
theorem normalizer_brace_substring_recovery :
    (∀ (s t : List Char) (v : JVal), loads (clean s) = none → extractBraced s = some t →
      loads t = some v → _safe_json_loads (some s) = some v) ∧
    _safe_json_loads (some ("Sure, here you go: \x7b\"a\": 1\x7d Hope that helps!".toList)) =
      some (JVal.jobj [(['a'], JVal.jnum 1)]) := by
  constructor
  · intro s t v h1 h2 h3
    by_cases hs : s = []
    · subst hs
      rw [show extractBraced ([] : List Char) = none from rfl] at h2
      cases h2
    · rw [safe_json_loads_some s hs, h1, extractBraced_clean s, h2]
      exact h3
  · rfl

/-- Witness for C4 at the concrete input of the spec. -/
theorem normalizer_brace_substring_recovery_witness :
    _safe_json_loads (some ("Sure, here you go: \x7b\"a\": 1\x7d Hope that helps!".toList)) =
      some (JVal.jobj [(['a'], JVal.jnum 1)]) :=
  normalizer_brace_substring_recovery.1 _ ("\x7b\"a\": 1\x7d".toList) _ (by rfl) (by rfl) (by rfl)

/-- C6: the Normalizer strips surrounding whitespace and markdown JSON fence
markers before parsing: for any input of the form whitespace, leading fence,
body, trailing fence, whitespace, the cleaned text is the stripped body and the
parse result of the stripped body is returned; in particular the fenced example
of the spec yields the object with key a mapped to 1. -/
theorem normalizer_fence_tolerance :
    (∀ w1 w2 mid : List Char, (∀ c ∈ w1, isPyWs c = true) → (∀ c ∈ w2, isPyWs c = true) →
      clean (w1 ++ (fenceOpen ++ mid ++ fenceClose) ++ w2) = pstrip mid ∧
      ∀ v : JVal, loads (pstrip mid) = some v →
        _safe_json_loads (some (w1 ++ (fenceOpen ++ mid ++ fenceClose) ++ w2)) = some v) ∧
    _safe_json_loads (some ("```json\n\x7b\"a\":1\x7d\n```".toList)) =
      some (JVal.jobj [(['a'], JVal.jnum 1)]) := by
  constructor
  · intro w1 w2 mid hw1 hw2
    have hclean := clean_fenced w1 w2 mid hw1 hw2
    refine ⟨hclean, ?_⟩
    intro v hv
    have hne : ¬(w1 ++ (fenceOpen ++ mid ++ fenceClose) ++ w2 = []) := by
      intro h
      simp [fenceOpen] at h
    rw [safe_json_loads_some _ hne, hclean, hv]
  · rfl

/-- Witness for C6 at the concrete input of the spec. -/
theorem normalizer_fence_tolerance_witness :
    clean (([] : List Char) ++ (fenceOpen ++ "\n\x7b\"a\":1\x7d\n".toList ++ fenceClose) ++ []) =
      pstrip ("\n\x7b\"a\":1\x7d\n".toList) ∧
    _safe_json_loads (some (([] : List Char) ++
        (fenceOpen ++ "\n\x7b\"a\":1\x7d\n".toList ++ fenceClose) ++ [])) =
      some (JVal.jobj [(['a'], JVal.jnum 1)]) := by
  have h := normalizer_fence_tolerance.1 [] [] ("\n\x7b\"a\":1\x7d\n".toList)
    (by intro c hc; simp at hc) (by intro c hc; simp at hc)
  exact ⟨h.1, h.2 _ (by rfl)⟩


/-- Outcome of one pass of the Resilient Invoker over the credential pool. -/
inductive GenOutcome where
  | success : List Char → GenOutcome
  | totalFailure : GenOutcome
deriving DecidableEq

/-- Modelled from the spec: the Resilient Invoker of spec section 4.2. The
credential-rotation wrapper described by the spec is not present under src/
(setup_api in src/core/ai_core.py configures exactly one credential and every
call site performs a single generation attempt), so the iteration is modelled
from the spec text: try each credential in pool order, return the first
successful payload immediately, advance past any failing credential, and report
total failure after one pass. The oracle `attempt` stands for the remote
generation service: `some payload` on success, `none` on any classified or
unclassified failure. The first component of the result is the sequence of
credentials attempted, in order. -/
def invoke (pool : List (List Char)) (attempt : List Char → Option (List Char)) :
    List (List Char) × GenOutcome :=
  match pool with
  | [] => ([], GenOutcome.totalFailure)
  | c :: rest =>
    match attempt c with
    | some payload => ([c], GenOutcome.success payload)
    | none =>
      let r := invoke rest attempt
      (c :: r.1, r.2)

/-- C1: for every non-empty credential pool in which the credential at 1-based
index k = pool1.length + 1 is engineered to succeed and every credential below
it is engineered to fail, `invoke` attempts exactly the first k credentials of
the pool in ascending index order (the attempted list is the length-k prefix of
the pool) and returns the payload produced by credential k. -/
theorem invoker_ascending_first_success (pool1 : List (List Char)) (cred : List Char)
    (pool2 : List (List Char)) (attempt : List Char → Option (List Char))
    (payload : List Char)
    (hfail : ∀ c ∈ pool1, attempt c = none) (hsucc : attempt cred = some payload) :
    invoke (pool1 ++ cred :: pool2) attempt =
      (pool1 ++ [cred], GenOutcome.success payload) ∧
    (pool1 ++ [cred]).length = pool1.length + 1 ∧
    pool1 ++ [cred] = (pool1 ++ cred :: pool2).take (pool1.length + 1) := by
  induction pool1 with
  | nil =>
    refine ⟨?_, by simp, by simp⟩
    show (match attempt cred with
      | some payload => ([cred], GenOutcome.success payload)
      | none =>
        let r := invoke pool2 attempt
        (cred :: r.1, r.2)) = ([cred], GenOutcome.success payload)
    rw [hsucc]
  | cons a t ih =>
    obtain ⟨h1, h2, h3⟩ := ih (fun c hc => hfail c (by simp [hc])) 
    refine ⟨?_, by simp, ?_⟩
    · show (match attempt a with
        | some payload => ([a], GenOutcome.success payload)
        | none =>
          let r := invoke (t ++ cred :: pool2) attempt
          (a :: r.1, r.2)) = ((a :: t) ++ [cred], GenOutcome.success payload)
      rw [hfail a (by simp), h1]
      rfl
    · simp only [List.cons_append, List.length_cons, List.take_succ_cons]
      rw [← h3]

/-- Witness for C1: a pool of three credentials where only the third succeeds. -/
theorem invoker_ascending_first_success_witness :
    invoke [['a'], ['b'], ['c']] (fun cr => if cr = ['c'] then some ['P'] else none) =
      ([['a'], ['b'], ['c']], GenOutcome.success ['P']) := by
  have h := invoker_ascending_first_success [['a'], ['b']] ['c'] []
    (fun cr => if cr = ['c'] then some ['P'] else none) ['P']
    (by intro c hc; fin_cases hc <;> rfl) (by rfl)
  exact h.1

/-- Result of process initialization in `setup_api`. -/
inductive SetupResult where
  | ok : List Char → SetupResult
  | exited : Nat → List Char → SetupResult
deriving DecidableEq

/-- Message of the ValueError raised by setup_api when no key is configured. -/
def apiKeyMissingMsg : List Char := "GOOGLE_API_KEY not found in your .env file.".toList

/-- Diagnostic printed by setup_api before calling sys.exit(1). -/
def configFailedDiag (e : List Char) : List Char :=
  "Error: API configuration failed. ".toList ++ e

/-- Model of `setup_api` (src/core/ai_core.py lines 20-30). The argument is the
value of the GOOGLE_API_KEY environment variable as returned by os.getenv
(`none` when unset); a missing or empty (falsy) key raises ValueError, which the
handler turns into the diagnostic print and `sys.exit(1)`; `genai.configure` is
an external call modelled as succeeding on a present key. -/
def setup_api (googleApiKey : Option (List Char)) : SetupResult :=
  match googleApiKey with
  | none => SetupResult.exited 1 (configFailedDiag apiKeyMissingMsg)
  | some k =>
    if k = [] then SetupResult.exited 1 (configFailedDiag apiKeyMissingMsg)
    else SetupResult.ok ("gemini-1.5-flash-latest".toList)

/-- Credential pool read from the configuration: the single GOOGLE_API_KEY slot,
empty when the variable is missing or empty. -/
def credentialPool (googleApiKey : Option (List Char)) : List (List Char) :=
  match googleApiKey with
  | none => []
  | some k => if k = [] then [] else [k]

/-- C3: if zero credentials are found in the configuration at process start,
initialization aborts the process with exit code 1 (non-zero) and a non-empty
diagnostic message instead of returning a model name and serving requests. -/
theorem setup_api_empty_pool_aborts (env : Option (List Char))
    (h : credentialPool env = []) :
    setup_api env = SetupResult.exited 1 (configFailedDiag apiKeyMissingMsg) ∧
    (1 : Nat) ≠ 0 ∧ configFailedDiag apiKeyMissingMsg ≠ [] := by
  refine ⟨?_, by omega, by simp [configFailedDiag]⟩
  cases env with
  | none => rfl
  | some k =>
    by_cases hk : k = []
    · subst hk; rfl
    · rw [show credentialPool (some k) = if k = [] then [] else [k] from rfl,
        if_neg hk] at h
      cases h

/-- Witness for C3 at the unset environment variable. -/
theorem setup_api_empty_pool_aborts_witness :
    setup_api none = SetupResult.exited 1 (configFailedDiag apiKeyMissingMsg) ∧
    (1 : Nat) ≠ 0 ∧ configFailedDiag apiKeyMissingMsg ≠ [] :=
  setup_api_empty_pool_aborts none rfl

/-- Values that `parse_user_optimization_input` can return in one component:
Python None, a string, or a boolean. -/
inductive PyOpt where
  | pynone : PyOpt
  | pystr : List Char → PyOpt
  | pybool : Bool → PyOpt
deriving DecidableEq

/-- Python truthiness of such a value. -/
def pyTruthy : PyOpt → Bool
  | PyOpt.pynone => false
  | PyOpt.pystr s => !s.isEmpty
  | PyOpt.pybool b => b

/-- Model of `_norm` (src/core/ai_core.py lines 129-131) on a string argument:
bool(s and s.strip()), true exactly when the stripped string is non-empty. -/
def _norm (s : List Char) : Bool := !(pstrip s).isEmpty

/-- Text before the first colon, as produced by val.split(":", 1). -/
def beforeFirstColon (s : List Char) : List Char := s.takeWhile (fun c => c != ':')

/-- Text after the first colon, as produced by val.split(":", 1). -/
def afterFirstColon (s : List Char) : List Char := (s.dropWhile (fun c => c != ':')).tail

/-- Python str.split() with no separator: split on whitespace runs, dropping
empty parts. -/
def pySplitWs (s : List Char) : List (List Char) :=
  (s.splitOnP isPyWs).filter (fun w => !w.isEmpty)

/-- Model of `parse_user_optimization_input` (src/core/ai_core.py lines
146-154). A `none` input behaves as the empty string through `(inp or "")`.
Note that the colon branch returns the two `_norm` booleans, not the section
and instruction substrings. -/
def parse_user_optimization_input (inp : Option (List Char)) : PyOpt × PyOpt :=
  let val := pstrip (inp.getD [])
  if val.isEmpty then (PyOpt.pynone, PyOpt.pynone)
  else if val.contains ':' then
    (PyOpt.pybool (_norm (beforeFirstColon val)), PyOpt.pybool (_norm (afterFirstColon val)))
  else if (pySplitWs val).length = 1 then (PyOpt.pystr val, PyOpt.pynone)
  else (PyOpt.pynone, PyOpt.pystr val)

/-- C9: `parse_user_optimization_input` returns, for an input containing a
colon, a pair of booleans, namely the non-blankness (`_norm`) of the text
before the first colon and of the text after it, not the section-name and
instruction substrings themselves; for an empty or whitespace-only input it
returns (None, None); for a single-word colon-free input it returns the
(stripped) word and None; for a multi-word colon-free input it returns None and
the stripped input. -/
theorem parse_user_optimization_input_behavior (inp : List Char) :
    (pstrip inp = [] →
      parse_user_optimization_input (some inp) = (PyOpt.pynone, PyOpt.pynone)) ∧
    ((pstrip inp).contains ':' = true →
      parse_user_optimization_input (some inp) =
        (PyOpt.pybool (_norm (beforeFirstColon (pstrip inp))),
         PyOpt.pybool (_norm (afterFirstColon (pstrip inp))))) ∧
    ((pstrip inp).contains ':' = false → (pySplitWs (pstrip inp)).length = 1 →
      parse_user_optimization_input (some inp) =
        (PyOpt.pystr (pstrip inp), PyOpt.pynone)) ∧
    ((pstrip inp).contains ':' = false → 2 ≤ (pySplitWs (pstrip inp)).length →
      parse_user_optimization_input (some inp) =
        (PyOpt.pynone, PyOpt.pystr (pstrip inp))) := by
  refine ⟨?_, ?_, ?_, ?_⟩
  · intro h
    show (if (pstrip inp).isEmpty then _ else _) = _
    rw [h]
    rfl
  · intro h
    have hne : (pstrip inp).isEmpty = false := by
      cases hp : pstrip inp with
      | nil => rw [hp] at h; cases h
      | cons a t => rfl
    show (if (pstrip inp).isEmpty then _
      else if (pstrip inp).contains ':' then _ else _) = _
    rw [hne, h]
    rfl
  · intro h h1
    have hne : (pstrip inp).isEmpty = false := by
      cases hp : pstrip inp with
      | nil => rw [hp] at h1; cases h1
      | cons a t => rfl
    show (if (pstrip inp).isEmpty then _
      else if (pstrip inp).contains ':' then _
      else if (pySplitWs (pstrip inp)).length = 1 then _ else _) = _
    rw [hne, h, h1]
    rfl
  · intro h h2
    have h1 : ¬((pySplitWs (pstrip inp)).length = 1) := by omega
    have hne : (pstrip inp).isEmpty = false := by
      cases hp : pstrip inp with
      | nil =>
        rw [hp] at h2
        rw [show pySplitWs [] = [] from rfl] at h2
        simp at h2
      | cons a t => rfl
    show (if (pstrip inp).isEmpty then _
      else if (pstrip inp).contains ':' then _
      else if (pySplitWs (pstrip inp)).length = 1 then _ else _) = _
    rw [hne, h, if_neg h1]
    rfl

/-- Witness for C9: one input per behavior case. -/
theorem parse_user_optimization_input_behavior_witness :
    parse_user_optimization_input (some ("   ".toList)) = (PyOpt.pynone, PyOpt.pynone) ∧
    parse_user_optimization_input (some ("skills: add python".toList)) =
      (PyOpt.pybool true, PyOpt.pybool true) ∧
    parse_user_optimization_input (some ("summary".toList)) =
      (PyOpt.pystr ("summary".toList), PyOpt.pynone) ∧
    parse_user_optimization_input (some ("make it better".toList)) =
      (PyOpt.pynone, PyOpt.pystr ("make it better".toList)) := by
  refine ⟨?_, ?_, ?_, ?_⟩
  · exact (parse_user_optimization_input_behavior ("   ".toList)).1 (by rfl)
  · exact (parse_user_optimization_input_behavior ("skills: add python".toList)).2.1 (by rfl)
  · exact (parse_user_optimization_input_behavior ("summary".toList)).2.2.1 (by rfl) (by rfl)
  · exact (parse_user_optimization_input_behavior ("make it better".toList)).2.2.2
      (by rfl) (by decide)

/-- A stored conversation turn: a role tag and a content string. -/
structure ChatMsg where
  role : List Char
  content : List Char
deriving DecidableEq

def userRole : List Char := "user".toList

def modelRole : List Char := "model".toList

/-- Conversion of one stored history entry by get_chatbot_response
(src/core/ai_core.py lines 680-687): the wire role is user when the stored
role is user and model otherwise, and entries with empty content are skipped. -/
def chatbotHistoryEntry (m : ChatMsg) : Option ChatMsg :=
  if m.content = [] then none
  else some ⟨if m.role = userRole then userRole else modelRole, m.content⟩

/-- model_history as built by the conversion loop, in stored order. -/
def chatbotModelHistory (history : List ChatMsg) : List ChatMsg :=
  history.filterMap chatbotHistoryEntry

/-- The system prompt of get_chatbot_response with the plan summary spliced in. -/
def chatbotSystemPrompt (careerPlanSummary : List Char) : List Char :=
  ("You are an AI career strategist and tutor. Your purpose is to provide concise, point-to-point, and beginner-friendly guidance to the user, strictly based on the career plan provided below.\n\n**Career Plan Details:**\n").toList ++
    careerPlanSummary ++
    ("\n\n**Your Instructions:**\n1. Keep responses brief, beginner-friendly, and to the point.\n2. You can answer questions related to the provided career plan, including the **job match score, priority skills, timeline, detailed roadmap, projects, and courses**.\n3. If the user asks a question that is **outside the scope** of the career plan's domain or is not directly related to the provided plan data, you must respond with a polite refusal. For example, 'That question seems to be outside the scope of your current career plan. Is there anything I can help you with related to your career plan?'\n\nLet's begin.").toList

/-- full_prompt: the system prompt combined with the newest user question. -/
def chatbotFullPrompt (query careerPlanSummary : List Char) : List Char :=
  chatbotSystemPrompt careerPlanSummary ++ ("\n\nUSER QUESTION: ").toList ++ query

/-- Sequence of messages transmitted to the remote chat service by
get_chatbot_response, in transmission order: start_chat replays model_history,
then send_message submits the combined prompt as the newest user turn. -/
def get_chatbot_response_wire (query : List Char) (history : List ChatMsg)
    (careerPlanSummary : List Char) : List ChatMsg :=
  chatbotModelHistory history ++ [⟨userRole, chatbotFullPrompt query careerPlanSummary⟩]

/-- Interviewer personality for difficulty easy. The visible text of the
Python triple-quoted literal is kept; its leading indentation is elided. -/
def easyPersonality : List Char :=
  ("Your Persona: You are a friendly and encouraging hiring manager for an entry-level role.\nYour Goal: Understand the candidate's basic knowledge and potential. Ask foundational, single-topic conceptual questions (e.g., \"In Python, what is the difference between a list and a tuple?\").\nYour Tone: Supportive and patient.\nYour First Action: Start with a simple, welcoming question like \"Thanks for coming in. To start, could you tell me about a project you're proud of that's relevant to this role?\"").toList

/-- Interviewer personality for difficulty hard, same convention. -/
def hardPersonality : List Char :=
  ("Your Persona: You are a sharp, direct senior engineer conducting a final-round interview.\nYour Goal: Rigorously test the candidate's deep technical expertise, problem-solving, and system design skills. Ask challenging, multi-part, or scenario-based questions (e.g., \"Given the requirements in the job description, walk me through how you would design a scalable, resilient API for our service. What bottlenecks would you anticipate and how would you mitigate them?\").\nYour Tone: Critical, professional, and expecting detailed answers. You will ask tough follow-up questions.\nYour First Action: Start directly with a challenging technical question based on a core skill from the job description.").toList

/-- Interviewer personality for any other difficulty (the medium default). -/
def mediumPersonality : List Char :=
  ("Your Persona: You are a professional team lead for a mid-level role.\nYour Goal: Assess the candidate's practical skills and real-world project experience. Ask behavioral and technical questions that require specific examples (e.g., \"Tell me about a time you had to deal with significant technical debt. How did you handle it and what was the outcome?\").\nYour Tone: Objective and focused.\nYour First Action: Start with a question about the candidate's most relevant experience from their resume, tying it to the job description.").toList

/-- personality_prompt selection of get_interview_chat_response. -/
def personalityPrompt (difficulty : List Char) : List Char :=
  if difficulty = "easy".toList then easyPersonality
  else if difficulty = "hard".toList then hardPersonality
  else mediumPersonality

/-- system_instruction of get_interview_chat_response, with the personality and
the job description spliced in (indentation of the literal elided). -/
def interviewSystemInstruction (jobDescription difficulty : List Char) : List Char :=
  ("\n").toList ++ personalityPrompt difficulty ++
    ("\n\nCRITICAL RULE: You are the INTERVIEWER. The user is the CANDIDATE. You must conduct a realistic interview.\nBase ALL of your questions and analysis strictly on the provided job description context below. Do not ask about skills not mentioned.\n\n--- JOB DESCRIPTION CONTEXT ---\n").toList ++
    jobDescription ++ ("\n--- END CONTEXT ---\n").toList

/-- The fixed model acknowledgement turn of get_interview_chat_response. -/
def interviewAck : ChatMsg :=
  ⟨modelRole, ("Understood. I am ready to begin the interview.").toList⟩

/-- full_history built by get_interview_chat_response (lines 990-994): the
system instruction as a user turn, the fixed acknowledgement, then the stored
history with roles and contents unchanged (formatted_history only re-wraps each
entry into the wire format). -/
def interviewFullHistory (jobDescription : List Char) (history : List ChatMsg)
    (difficulty : List Char) : List ChatMsg :=
  ⟨userRole, interviewSystemInstruction jobDescription difficulty⟩ ::
    interviewAck :: history

/-- History handed to start_chat: full_history[:-1]. -/
def interviewStartHistory (jd : List Char) (history : List ChatMsg)
    (difficulty : List Char) : List ChatMsg :=
  (interviewFullHistory jd history difficulty).dropLast

/-- Message submitted through send_message: full_history[-1] (full_history is
never empty, so the default of the total model is never used). -/
def interviewSentMessage (jd : List Char) (history : List ChatMsg)
    (difficulty : List Char) : ChatMsg :=
  (interviewFullHistory jd history difficulty).getLastD interviewAck

/-- Sequence transmitted by get_interview_chat_response, in transmission order:
start_chat replays the start history, then send_message submits the last
message. -/
def get_interview_chat_response_wire (jd : List Char) (history : List ChatMsg)
    (difficulty : List Char) : List ChatMsg :=
  interviewStartHistory jd history difficulty ++
    [interviewSentMessage jd history difficulty]

/-- Dropping the last element and re-appending it recovers a non-empty list. -/
theorem dropLast_append_getLastD {α : Type} :
    (l : List α) → (d : α) → l ≠ [] → l.dropLast ++ [l.getLastD d] = l
  | [], _, h => by cases h rfl
  | [b], d, _ => rfl
  | b :: c :: t, d, _ => by
    rw [List.dropLast_cons_of_ne_nil (by simp), List.getLastD_cons]
    rw [List.cons_append]
    rw [dropLast_append_getLastD (c :: t) b (by simp)]

/-- C8: within one conversational invocation, stored history is replayed in
its original order before the newest turn is submitted. For
get_chatbot_response, every transmitted message except the last is the
order-preserving conversion of the stored history (roles mapped onto
user/model, empty-content turns skipped), and the message transmitted last is
the single combined system-prompt-plus-query turn. For
get_interview_chat_response with non-empty stored history, start_chat replays
the system-instruction turn, the fixed acknowledgement, and all stored turns
except the last, in order; send_message then submits exactly the last stored
turn, so the transmitted sequence is the system turn, the acknowledgement, and
the stored history in original order. -/
theorem chat_history_replayed_in_order (query plan jd difficulty : List Char)
    (history : List ChatMsg) (hne : history ≠ []) :
    (get_chatbot_response_wire query history plan).dropLast =
      chatbotModelHistory history ∧
    (get_chatbot_response_wire query history plan).getLast? =
      some (ChatMsg.mk userRole (chatbotFullPrompt query plan)) ∧
    interviewStartHistory jd history difficulty =
      ChatMsg.mk userRole (interviewSystemInstruction jd difficulty) ::
        interviewAck :: history.dropLast ∧
    interviewSentMessage jd history difficulty = history.getLastD interviewAck ∧
    get_interview_chat_response_wire jd history difficulty =
      ChatMsg.mk userRole (interviewSystemInstruction jd difficulty) ::
        interviewAck :: history := by
  refine ⟨?_, ?_, ?_, ?_, ?_⟩
  · show (chatbotModelHistory history ++
      [ChatMsg.mk userRole (chatbotFullPrompt query plan)]).dropLast =
      chatbotModelHistory history
    rw [List.dropLast_concat]
  · show (chatbotModelHistory history ++
      [ChatMsg.mk userRole (chatbotFullPrompt query plan)]).getLast? =
      some (ChatMsg.mk userRole (chatbotFullPrompt query plan))
    rw [List.getLast?_concat]
  · show (ChatMsg.mk userRole (interviewSystemInstruction jd difficulty) ::
      interviewAck :: history).dropLast = _
    rw [List.dropLast_cons_of_ne_nil (by simp), List.dropLast_cons_of_ne_nil hne]
  · show (ChatMsg.mk userRole (interviewSystemInstruction jd difficulty) ::
      interviewAck :: history).getLastD interviewAck = _
    rw [List.getLastD_cons, List.getLastD_cons]
  · show (interviewFullHistory jd history difficulty).dropLast ++
      [(interviewFullHistory jd history difficulty).getLastD interviewAck] =
      interviewFullHistory jd history difficulty
    exact dropLast_append_getLastD _ interviewAck (by simp [interviewFullHistory])

/-- Witness for C8: a concrete two-turn interview history. -/
theorem chat_history_replayed_in_order_witness :
    get_interview_chat_response_wire ("j".toList)
        [ChatMsg.mk userRole ("a".toList), ChatMsg.mk modelRole ("b".toList)]
        ("easy".toList) =
      ChatMsg.mk userRole (interviewSystemInstruction ("j".toList) ("easy".toList)) ::
        interviewAck ::
        [ChatMsg.mk userRole ("a".toList), ChatMsg.mk modelRole ("b".toList)] :=
  (chat_history_replayed_in_order ("q".toList) ("p".toList) ("j".toList)
    ("easy".toList)
    [ChatMsg.mk userRole ("a".toList), ChatMsg.mk modelRole ("b".toList)]
    (by decide)).2.2.2.2

/-- Python truthiness of a decoded JSON value. -/
def jvalTruthy : JVal → Bool
  | JVal.jnull => false
  | JVal.jbool b => b
  | JVal.jnum n => decide (n ≠ 0)
  | JVal.jstr s => !s.isEmpty
  | JVal.jarr xs => !xs.isEmpty
  | JVal.jobj kvs => !kvs.isEmpty

/-- Python substring containment: needle in hay. -/
def containsSub (hay needle : List Char) : Bool :=
  match hay with
  | [] => hasPre needle []
  | c :: t => hasPre needle (c :: t) || containsSub t needle

/-- Normalization of the fuzzy target in _best_section_key (src/core/ai_core.py
line 140): strip, lowercase, then replace spaces and dashes by underscores. -/
def normTarget (s : List Char) : List Char :=
  ((pstrip s).map Char.toLower).map
    (fun c => if c = ' ' then '_' else if c = '-' then '_' else c)

/-- Normalization of an available key in _best_section_key (line 142):
lowercase and replace spaces (only) by underscores. -/
def normKey (k : List Char) : List Char :=
  (k.map Char.toLower).map (fun c => if c = ' ' then '_' else c)

/-- The loop of _best_section_key (lines 141-143): first key whose normal form
equals, contains, or is contained in the normalized target. -/
def bestSectionKeyLoop (t : List Char) (keys : List (List Char)) :
    Option (List Char) :=
  match keys with
  | [] => none
  | k :: rest =>
    if t = normKey k || containsSub (normKey k) t || containsSub t (normKey k)
    then some k
    else bestSectionKeyLoop t rest

/-- Message of the AttributeError raised when .strip() is called on a bool. -/
def boolStripAttrError : List Char :=
  ("AttributeError: 'bool' object has no attribute 'strip'").toList

/-- Model of `_best_section_key` (src/core/ai_core.py lines 137-144) on the
values optimize_resume_json can pass for target_key. A falsy target returns
None at the guard; the boolean True passes the guard and then crashes on
.strip(), modelled as an error; a non-empty string runs the matching loop. -/
def _best_section_key (target : PyOpt) (availableKeys : List (List Char)) :
    Except (List Char) (Option (List Char)) :=
  match target with
  | PyOpt.pynone => Except.ok none
  | PyOpt.pybool false => Except.ok none
  | PyOpt.pybool true => Except.error boolStripAttrError
  | PyOpt.pystr s =>
    if s = [] then Except.ok none
    else Except.ok (bestSectionKeyLoop (normTarget s) availableKeys)

/-- Lookup in a Python dict modelled as an ordered association list. -/
def assocGet (m : List (List Char × JVal)) (k : List Char) : Option JVal :=
  (m.find? (fun p => p.1 == k)).map Prod.snd

/-- Python dict item assignment d[k] = v: replace in place when the key is
present (keeping the original key and position), append otherwise. -/
def assocSet (m : List (List Char × JVal)) (k : List Char) (v : JVal) :
    List (List Char × JVal) :=
  match m with
  | [] => [(k, v)]
  | (k1, v1) :: t => if k1 = k then (k1, v) :: t else (k1, v1) :: assocSet t k v

/-- Python dict.update(upd): assign each pair of upd in iteration order. -/
def dictUpdate (d upd : List (List Char × JVal)) : List (List Char × JVal) :=
  upd.foldl (fun acc p => assocSet acc p.1 p.2) d

/-- The merge loop of optimize_resume_json (src/core/ai_core.py lines 404-411):
for each key of the optimized object, update in place when both sides are
dicts, otherwise assign. -/
def mergeResume (resume : List (List Char × JVal))
    (opt : List (List Char × JVal)) : List (List Char × JVal) :=
  opt.foldl
    (fun acc p =>
      match assocGet acc p.1, p.2 with
      | some (JVal.jobj d), JVal.jobj u => assocSet acc p.1 (JVal.jobj (dictUpdate d u))
      | _, _ => assocSet acc p.1 p.2)
    resume

/-- Model of `optimize_resume_json` (src/core/ai_core.py lines 311-414).
The resume is an ordered string-keyed JSON object (data read from the store
after _convert_firestore_timestamps, so the check_for_non_serializable walk
finds no datetime and the TypeError path cannot fire). The oracle `gen` stands
for model.generate_content on the built prompt: an error for a raised
exception, ok for the response text. Prompt construction does not influence
the returned value and is omitted. The in-place mutations of the Python code
are modelled by returning the updated object; an uncaught exception
(_best_section_key on the boolean True, outside the try block) is an error. -/
def optimize_resume_json (resume : List (List Char × JVal)) (userInput : List Char)
    (gen : Except (List Char) (List Char)) :
    Except (List Char) (List (List Char × JVal)) :=
  if pyTruthy (parse_user_optimization_input (some userInput)).1 then
    match _best_section_key (parse_user_optimization_input (some userInput)).1
        (resume.map Prod.fst) with
    | Except.error e => Except.error e
    | Except.ok none => Except.ok resume
    | Except.ok (some mapped) =>
      match gen with
      | Except.error _ => Except.ok resume
      | Except.ok txt =>
        match _safe_json_loads (some txt) with
        | none => Except.ok resume
        | some od =>
          if jvalTruthy od then Except.ok (assocSet resume mapped od)
          else Except.ok resume
  else
    match gen with
    | Except.error _ => Except.ok resume
    | Except.ok txt =>
      match _safe_json_loads (some txt) with
      | none => Except.ok resume
      | some od =>
        if jvalTruthy od then
          match od with
          | JVal.jobj kvs => Except.ok (mergeResume resume kvs)
          | _ => Except.ok resume
        else Except.ok resume

/-- On any target other than the boolean True, _best_section_key returns. -/
theorem best_section_key_ok (t : PyOpt) (keys : List (List Char))
    (h : t ≠ PyOpt.pybool true) :
    ∃ r, _best_section_key t keys = Except.ok r := by
  cases t with
  | pynone => exact ⟨none, rfl⟩
  | pybool b =>
    cases b with
    | false => exact ⟨none, rfl⟩
    | true => cases h rfl
  | pystr s =>
    by_cases hs : s = []
    · exact ⟨none, by rw [show _best_section_key (PyOpt.pystr s) keys =
        if s = [] then Except.ok none
        else Except.ok (bestSectionKeyLoop (normTarget s) keys) from rfl, if_pos hs]⟩
    · exact ⟨bestSectionKeyLoop (normTarget s) keys,
        by rw [show _best_section_key (PyOpt.pystr s) keys =
          if s = [] then Except.ok none
          else Except.ok (bestSectionKeyLoop (normTarget s) keys) from rfl,
          if_neg hs]⟩

/-- C7: whenever the run of optimize_resume_json reaches a generation attempt
(hreach excludes the inputs on which _best_section_key raises on the boolean
True before any attempt, see C9) and the attempt raises an exception or its
response text fails _safe_json_loads (the fallback sentinel None), the function
returns the input resume object unchanged. This covers both the section branch
and the whole-resume branch, and also the pre-generation early return when no
section key matches. -/
theorem optimize_resume_json_failure_identity
    (resume : List (List Char × JVal)) (userInput : List Char)
    (gen : Except (List Char) (List Char))
    (hreach : (parse_user_optimization_input (some userInput)).1 ≠ PyOpt.pybool true)
    (hfail : (∃ e, gen = Except.error e) ∨
      (∃ txt, gen = Except.ok txt ∧ _safe_json_loads (some txt) = none)) :
    optimize_resume_json resume userInput gen = Except.ok resume := by
  rcases hfail with ⟨e, he⟩ | ⟨txt, ht, hl⟩
  · subst he
    by_cases hpt : pyTruthy (parse_user_optimization_input (some userInput)).1 = true
    · obtain ⟨r, hr⟩ := best_section_key_ok
        (parse_user_optimization_input (some userInput)).1
        (resume.map Prod.fst) hreach
      rw [optimize_resume_json, if_pos hpt, hr]
      cases r with
      | none => rfl
      | some mapped => rfl
    · rw [optimize_resume_json, if_neg hpt]
  · subst ht
    by_cases hpt : pyTruthy (parse_user_optimization_input (some userInput)).1 = true
    · obtain ⟨r, hr⟩ := best_section_key_ok
        (parse_user_optimization_input (some userInput)).1
        (resume.map Prod.fst) hreach
      rw [optimize_resume_json, if_pos hpt, hr]
      cases r with
      | none => rfl
      | some mapped =>
        show (match _safe_json_loads (some txt) with
          | none => Except.ok resume
          | some od =>
            if jvalTruthy od then Except.ok (assocSet resume mapped od)
            else Except.ok resume :
          Except (List Char) (List (List Char × JVal))) = Except.ok resume
        rw [hl]
    · rw [optimize_resume_json, if_neg hpt]
      show (match _safe_json_loads (some txt) with
        | none => Except.ok resume
        | some od =>
          if jvalTruthy od then
            match od with
            | JVal.jobj kvs => Except.ok (mergeResume resume kvs)
            | _ => Except.ok resume
          else Except.ok resume :
        Except (List Char) (List (List Char × JVal))) = Except.ok resume
      rw [hl]

/-- Witness for C7: a one-section resume and a raising generation attempt. -/
theorem optimize_resume_json_failure_identity_witness :
    optimize_resume_json [(("summary").toList, JVal.jstr ("hi").toList)]
        (("summary").toList) (Except.error ("quota exceeded").toList) =
      Except.ok [(("summary").toList, JVal.jstr ("hi").toList)] :=
  optimize_resume_json_failure_identity
    [(("summary").toList, JVal.jstr ("hi").toList)] (("summary").toList)
    (Except.error ("quota exceeded").toList) (by decide)
    (Or.inl ⟨("quota exceeded").toList, rfl⟩)

/-- A Python datetime value (naive, as the stored Firestore timestamp fields). -/
structure PyDatetime where
  year : Nat
  month : Nat
  day : Nat
  hour : Nat
  minute : Nat
  second : Nat
  microsecond : Nat
deriving DecidableEq

/-- Decimal digits of n left-padded with zeros to width w. -/
def padNum (w n : Nat) : List Char :=
  List.replicate (w - (natToChars n).length) '0' ++ natToChars n

/-- Model of datetime.isoformat() on a naive datetime: YYYY-MM-DDTHH:MM:SS,
with a .ffffff microsecond suffix exactly when the microsecond is nonzero. -/
def isoformat (d : PyDatetime) : List Char :=
  padNum 4 d.year ++ '-' :: padNum 2 d.month ++ '-' :: padNum 2 d.day ++
    'T' :: padNum 2 d.hour ++ ':' :: padNum 2 d.minute ++ ':' :: padNum 2 d.second ++
    (if d.microsecond = 0 then [] else '.' :: padNum 6 d.microsecond)

/-- Python values that can appear in a document read back from the store:
scalar leaves, datetimes, lists, and string-keyed dicts. -/
inductive PVal where
  | pstr : List Char → PVal
  | pint : Int → PVal
  | pbool : Bool → PVal
  | pnone : PVal
  | pdt : PyDatetime → PVal
  | plist : List PVal → PVal
  | pdict : List (List Char × PVal) → PVal

mutual

/-- Model of `_convert_firestore_timestamps` (src/core/db_core.py lines 23-35):
recurse through dicts (keys untouched) and lists, replace every datetime by its
isoformat string, and return every other value as is. -/
def _convert_firestore_timestamps : PVal → PVal
  | PVal.pdict kvs => PVal.pdict (convertKVs kvs)
  | PVal.plist xs => PVal.plist (convertList xs)
  | PVal.pdt d => PVal.pstr (isoformat d)
  | v => v

/-- The list comprehension of line 31, in element order. -/
def convertList : List PVal → List PVal
  | [] => []
  | x :: t => _convert_firestore_timestamps x :: convertList t

/-- The dict comprehension of line 29, in iteration order, keys unchanged. -/
def convertKVs : List (List Char × PVal) → List (List Char × PVal)
  | [] => []
  | (k, v) :: t => (k, _convert_firestore_timestamps v) :: convertKVs t

end

mutual

/-- A datetime occurs somewhere inside the value. -/
def containsDatetime : PVal → Bool
  | PVal.pdt _ => true
  | PVal.plist xs => listContainsDatetime xs
  | PVal.pdict kvs => kvsContainsDatetime kvs
  | _ => false

/-- A datetime occurs somewhere inside one of the list elements. -/
def listContainsDatetime : List PVal → Bool
  | [] => false
  | x :: t => containsDatetime x || listContainsDatetime t

/-- A datetime occurs somewhere inside one of the dict values. -/
def kvsContainsDatetime : List (List Char × PVal) → Bool
  | [] => false
  | p :: t => containsDatetime p.2 || kvsContainsDatetime t

end

theorem conv_pstr (s : List Char) :
    _convert_firestore_timestamps (PVal.pstr s) = PVal.pstr s := by
  rw [_convert_firestore_timestamps.eq_def]

theorem conv_pint (n : Int) :
    _convert_firestore_timestamps (PVal.pint n) = PVal.pint n := by
  rw [_convert_firestore_timestamps.eq_def]

theorem conv_pbool (b : Bool) :
    _convert_firestore_timestamps (PVal.pbool b) = PVal.pbool b := by
  rw [_convert_firestore_timestamps.eq_def]

theorem conv_pnone :
    _convert_firestore_timestamps PVal.pnone = PVal.pnone := by
  rw [_convert_firestore_timestamps.eq_def]

theorem conv_pdt (d : PyDatetime) :
    _convert_firestore_timestamps (PVal.pdt d) = PVal.pstr (isoformat d) := by
  rw [_convert_firestore_timestamps.eq_def]

theorem conv_plist (xs : List PVal) :
    _convert_firestore_timestamps (PVal.plist xs) = PVal.plist (convertList xs) := by
  rw [_convert_firestore_timestamps.eq_def]

theorem conv_pdict (kvs : List (List Char × PVal)) :
    _convert_firestore_timestamps (PVal.pdict kvs) = PVal.pdict (convertKVs kvs) := by
  rw [_convert_firestore_timestamps.eq_def]

theorem cl_nil : convertList [] = [] := by
  rw [convertList.eq_def]

theorem cl_cons (x : PVal) (t : List PVal) :
    convertList (x :: t) =
      _convert_firestore_timestamps x :: convertList t := by
  rw [convertList.eq_def]

theorem ckv_nil : convertKVs [] = [] := by
  rw [convertKVs.eq_def]

theorem ckv_cons (k : List Char) (v : PVal) (t : List (List Char × PVal)) :
    convertKVs ((k, v) :: t) =
      (k, _convert_firestore_timestamps v) :: convertKVs t := by
  rw [convertKVs.eq_def]

theorem cdt_pstr (s : List Char) : containsDatetime (PVal.pstr s) = false := by
  rw [containsDatetime.eq_def]

theorem cdt_pint (n : Int) : containsDatetime (PVal.pint n) = false := by
  rw [containsDatetime.eq_def]

theorem cdt_pbool (b : Bool) : containsDatetime (PVal.pbool b) = false := by
  rw [containsDatetime.eq_def]

theorem cdt_pnone : containsDatetime PVal.pnone = false := by
  rw [containsDatetime.eq_def]

theorem cdt_plist (xs : List PVal) :
    containsDatetime (PVal.plist xs) = listContainsDatetime xs := by
  rw [containsDatetime.eq_def]

theorem cdt_pdict (kvs : List (List Char × PVal)) :
    containsDatetime (PVal.pdict kvs) = kvsContainsDatetime kvs := by
  rw [containsDatetime.eq_def]

theorem ldt_nil : listContainsDatetime [] = false := by
  rw [listContainsDatetime.eq_def]

theorem ldt_cons (x : PVal) (t : List PVal) :
    listContainsDatetime (x :: t) =
      (containsDatetime x || listContainsDatetime t) := by
  rw [listContainsDatetime.eq_def]

theorem kdt_nil : kvsContainsDatetime [] = false := by
  rw [kvsContainsDatetime.eq_def]

theorem kdt_cons (p : List Char × PVal) (t : List (List Char × PVal)) :
    kvsContainsDatetime (p :: t) =
      (containsDatetime p.2 || kvsContainsDatetime t) := by
  rw [kvsContainsDatetime.eq_def]

mutual

/-- No datetime survives the conversion of any value. -/
theorem convert_no_datetime : (v : PVal) →
    containsDatetime (_convert_firestore_timestamps v) = false
  | PVal.pstr s => by rw [conv_pstr, cdt_pstr]
  | PVal.pint n => by rw [conv_pint, cdt_pint]
  | PVal.pbool b => by rw [conv_pbool, cdt_pbool]
  | PVal.pnone => by rw [conv_pnone, cdt_pnone]
  | PVal.pdt d => by rw [conv_pdt, cdt_pstr]
  | PVal.plist xs => by
    rw [conv_plist, cdt_plist]
    exact convertList_no_datetime xs
  | PVal.pdict kvs => by
    rw [conv_pdict, cdt_pdict]
    exact convertKVs_no_datetime kvs

/-- No datetime survives the conversion of any list. -/
theorem convertList_no_datetime : (xs : List PVal) →
    listContainsDatetime (convertList xs) = false
  | [] => by rw [cl_nil, ldt_nil]
  | x :: t => by
    rw [cl_cons, ldt_cons, convert_no_datetime x, convertList_no_datetime t]
    rfl

/-- No datetime survives the conversion of any dict. -/
theorem convertKVs_no_datetime : (kvs : List (List Char × PVal)) →
    kvsContainsDatetime (convertKVs kvs) = false
  | [] => by rw [ckv_nil, kdt_nil]
  | (k, v) :: t => by
    rw [ckv_cons, kdt_cons]
    show (containsDatetime (_convert_firestore_timestamps v) ||
      kvsContainsDatetime (convertKVs t)) = false
    rw [convert_no_datetime v, convertKVs_no_datetime t]
    rfl

end

/-- The converted list is the elementwise conversion. -/
theorem convertList_eq_map (xs : List PVal) :
    convertList xs = xs.map _convert_firestore_timestamps := by
  induction xs with
  | nil => rw [cl_nil, List.map_nil]
  | cons x t ih => rw [cl_cons, List.map_cons, ih]

/-- The converted dict is the valuewise conversion, keys and order kept. -/
theorem convertKVs_eq_map (kvs : List (List Char × PVal)) :
    convertKVs kvs =
      kvs.map (fun p => (p.1, _convert_firestore_timestamps p.2)) := by
  induction kvs with
  | nil => rw [ckv_nil, List.map_nil]
  | cons p t ih =>
    obtain ⟨k, v⟩ := p
    rw [ckv_cons, List.map_cons, ih]

/-- C10: _convert_firestore_timestamps replaces every datetime anywhere inside
the value by its isoformat string and leaves every other leaf unchanged, while
preserving list structure and dict keys and order; no datetime remains anywhere
in the result. -/
theorem convert_firestore_timestamps_correct :
    (∀ v : PVal, containsDatetime (_convert_firestore_timestamps v) = false) ∧
    (∀ d : PyDatetime,
      _convert_firestore_timestamps (PVal.pdt d) = PVal.pstr (isoformat d)) ∧
    (∀ s, _convert_firestore_timestamps (PVal.pstr s) = PVal.pstr s) ∧
    (∀ n, _convert_firestore_timestamps (PVal.pint n) = PVal.pint n) ∧
    (∀ b, _convert_firestore_timestamps (PVal.pbool b) = PVal.pbool b) ∧
    (_convert_firestore_timestamps PVal.pnone = PVal.pnone) ∧
    (∀ xs, _convert_firestore_timestamps (PVal.plist xs) =
      PVal.plist (xs.map _convert_firestore_timestamps)) ∧
    (∀ kvs, _convert_firestore_timestamps (PVal.pdict kvs) =
      PVal.pdict (kvs.map (fun p => (p.1, _convert_firestore_timestamps p.2)))) :=
  ⟨convert_no_datetime, conv_pdt, conv_pstr, conv_pint, conv_pbool, conv_pnone,
    fun xs => by rw [conv_plist, convertList_eq_map],
    fun kvs => by rw [conv_pdict, convertKVs_eq_map]⟩
